import Mathlib

/-!
Shallow embedding of the Snowman transitive consensus engine
(`snow/engine/snowman`, file `src/unnamed/part_000`) together with the
missing-block sentinel (`src/vms/components/missing/block.go`).

Machine integers (`uint32` request IDs, lengths) are modelled as `Nat`
(no overflow is relevant to any statement below).  Wire byte strings are
`List Nat`.  External collaborators (VM, Sender, Validators, the Snowball
consensus core, the poll set, the `events.Blocker`, the LRU cache and the
requests table, whose sources are not part of this repository snapshot)
are modelled from the spec, as marked on each definition.  The engine's
re-entrant continuation cascade is made total with an explicit fuel
parameter; exhausted fuel returns the state unchanged.

Every engine operation returns the new state together with a trace of
observable events (messages handed to the Sender, plus ghost markers for
the `Verify`, `Consensus.Add` and `issue` call sites, which several
claims are about).  The ghost markers record the arguments of the call
and, for `Consensus.Add`, a snapshot of the consensus `issued` set at
call time; they do not influence the computed state.
-/

namespace SnowmanEngine

/-- Byte strings on the wire (`[]byte`). -/
abbrev Bytes := List Nat

/-- `snow/choices.Status`. -/
inductive BStatus where
  | unknown
  | processing
  | accepted
  | rejected
deriving DecidableEq, Repr

/-- `choices.Status.Decided()`: accepted or rejected. -/
def BStatus.decided : BStatus → Bool
  | .accepted => true
  | .rejected => true
  | _ => false

/-- `choices.Status.Fetched()`: processing, or decided. -/
def BStatus.fetched : BStatus → Bool
  | .processing => true
  | st => st.decided

/-- Immutable data of a VM block: ID, parent ID, height, bytes, status,
and the (deterministic) outcomes of its `Verify`/`Accept`/`Reject`
methods (`true` = returns nil, `false` = returns an error). -/
structure BlkData where
  bid : Nat
  parent : Nat
  height : Nat
  bytes : Bytes
  status : BStatus
  verifyOk : Bool
  acceptOk : Bool
  rejectOk : Bool
deriving Repr

/-- A block as the engine sees it: either a VM block (`snowman.Block`,
possibly an `OracleBlock`) or the missing-block sentinel
(`missing.Block`, `src/vms/components/missing/block.go`).
For a VM block, `oracle = none` means the block does not implement
`OracleBlock`; `some none` means it does but `Options()` returns an
error; `some (some (o1, o2))` gives the two options. -/
inductive Blk where
  | node (d : BlkData) (oracle : Option (Option (Blk × Blk)))
  | missing (bid : Nat)

/-- `Block.ID()`; the sentinel returns its stored ID. -/
def Blk.bid : Blk → Nat
  | .node d _ => d.bid
  | .missing i => i

/-- `Block.Parent()`; the sentinel returns the empty ID (modelled 0). -/
def Blk.parent : Blk → Nat
  | .node d _ => d.parent
  | .missing _ => 0

/-- `Block.Bytes()`; the sentinel returns nil. -/
def Blk.bytes : Blk → Bytes
  | .node d _ => d.bytes
  | .missing _ => []

/-- `Block.Status()`; the sentinel reports Unknown. -/
def Blk.status : Blk → BStatus
  | .node d _ => d.status
  | .missing _ => .unknown

/-- Whether `Block.Verify()` returns nil; the sentinel always errors. -/
def Blk.verifyOk : Blk → Bool
  | .node d _ => d.verifyOk
  | .missing _ => false

/-- Whether `Block.Accept()` returns nil; the sentinel always errors. -/
def Blk.acceptOk : Blk → Bool
  | .node d _ => d.acceptOk
  | .missing _ => false

/-- Whether `Block.Reject()` returns nil; the sentinel always errors. -/
def Blk.rejectOk : Blk → Bool
  | .node d _ => d.rejectOk
  | .missing _ => false

/-- The `OracleBlock` capability of a block (see `Blk`). -/
def Blk.oracle : Blk → Option (Option (Blk × Blk))
  | .node _ o => o
  | .missing _ => none

/-- Observable events of an engine operation: messages handed to the
Sender, plus ghost call-site markers (see the file comment). -/
inductive Event where
  | issueCall (blk : Blk)
  | verifyCall (blk : Blk)
  | addCall (blk : Blk) (issuedAt : List Nat)
  | sendGet (vdr rid blkID : Nat)
  | sendPut (vdr rid blkID : Nat) (bytes : Bytes)
  | sendMultiPut (vdr rid : Nat) (containers : List Bytes)
  | sendPullQuery (vdrs : List Nat) (rid blkID : Nat)
  | sendPushQuery (vdrs : List Nat) (rid blkID : Nat) (bytes : Bytes)
  | sendChits (vdr rid : Nat) (votes : List Nat)
  | sendGossip (blkID : Nat) (bytes : Bytes)

/-- Modelled from the spec: the three continuation flavours registered
on the `events.Blocker` (issuer / convincer / voter; their sources are
not in this snapshot). -/
inductive Cont where
  | issuerC (blk : Blk)
  | convincerC (vdr rid : Nat)
  | voterC (vdr rid : Nat) (response : Option Nat)

/-- Modelled from the spec: `cache.LRU`, a bounded map with
recency-of-insert/access order (front of `entries` = most recent). -/
structure LRU (α : Type) where
  size : Nat
  entries : List (Nat × α)

/-- `LRU.Get`: a hit promotes the entry to most-recent and returns the
updated cache. -/
def LRU.get {α : Type} (c : LRU α) (k : Nat) : Option α × LRU α :=
  match c.entries.find? (fun e => e.1 == k) with
  | none => (none, c)
  | some e => (some e.2, ⟨c.size, e :: c.entries.filter (fun x => x.1 != k)⟩)

/-- `LRU.Put`: insert/update at most-recent, evicting beyond capacity. -/
def LRU.put {α : Type} (c : LRU α) (k : Nat) (v : α) : LRU α :=
  ⟨c.size, ((k, v) :: c.entries.filter (fun x => x.1 != k)).take c.size⟩

/-- `LRU.Evict`: remove the key if present. -/
def LRU.evict {α : Type} (c : LRU α) (k : Nat) : LRU α :=
  ⟨c.size, c.entries.filter (fun x => x.1 != k)⟩

/-- Key membership in an LRU cache. -/
def LRU.containsKey {α : Type} (c : LRU α) (k : Nat) : Bool :=
  (c.entries.find? (fun e => e.1 == k)).isSome

/-- Modelled from the spec: `common.Requests`, the bidirectional
`(validator, requestID) ↔ blockID` table, as a list of triples. -/
abbrev ReqTable := List (Nat × Nat × Nat)

/-- `Requests.Remove(vdr, requestID)`: look up and delete. -/
def reqRemove (r : ReqTable) (vdr rid : Nat) : Option Nat × ReqTable :=
  match r.find? (fun e => e.1 == vdr && e.2.1 == rid) with
  | none => (none, r)
  | some e => (some e.2.2, r.filter (fun x => !(x.1 == vdr && x.2.1 == rid)))

/-- `Requests.RemoveAny(blkID)`: delete every request for the block. -/
def reqRemoveAny (r : ReqTable) (blkID : Nat) : ReqTable :=
  r.filter (fun x => x.2.2 != blkID)

/-- `Requests.Contains(blkID)`. -/
def reqContains (r : ReqTable) (blkID : Nat) : Bool :=
  r.any (fun x => x.2.2 == blkID)

/-- `Requests.Add(vdr, requestID, blkID)`. -/
def reqAdd (r : ReqTable) (vdr rid blkID : Nat) : ReqTable :=
  (vdr, rid, blkID) :: r

/-- Modelled from the spec: one outstanding poll of `poll.Set`
(request ID, bag of still-unresponded validators, accumulated chits). -/
structure PollRec where
  rid : Nat
  outstanding : List Nat
  votes : List Nat

/-- The poll set, keyed by request ID. -/
abbrev Polls := List PollRec

/-- Modelled from the spec: `poll.Set.Add` registers a poll for a fresh
request ID and reports whether it was added. -/
def pollsAdd (ps : Polls) (rid : Nat) (bag : List Nat) : Bool × Polls :=
  if ps.any (fun p => p.rid == rid) then (false, ps)
  else (true, ⟨rid, bag, []⟩ :: ps)

/-- Modelled from the spec: the state of the Snowball consensus core as
far as the engine observes it — the set of block IDs added so far
(`Issued`) and the current preference. -/
structure Cons where
  issued : List Nat
  pref : Nat

/-- `Consensus.Issued(blk)`. -/
def consIssued (c : Cons) (blk : Blk) : Bool :=
  c.issued.contains blk.bid

/-- The static environment: configuration parameters and the
deterministic behaviour of the external collaborators (VM, Validators,
and the consensus core's reaction oracles), modelled from the spec. -/
structure Env where
  k : Nat
  concurrentRepolls : Nat
  parseBlock : Bytes → Option Blk
  vmGetBlock : Nat → Option Blk
  buildBlock : Option Blk
  lastAccepted : Nat
  sample : Option (List Nat)
  rejFn : Nat → Bool
  prefFn : List Nat → Nat → Nat
  recordPoll : Cons → List Nat → Cons × List Nat

/-- `Consensus.Add(blk)`: the block joins the issued set; whether it is
immediately rejected is given by the environment's oracle, and the
preference is recomputed by the environment's oracle. -/
def consAdd (env : Env) (c : Cons) (blk : Blk) : Bool × Cons :=
  let issued := blk.bid :: c.issued
  (env.rejFn blk.bid, ⟨issued, env.prefFn issued c.pref⟩)

/-- The engine state (the fields of `Transitive` that the claims are
about). `vmPref` records the last `VM.SetPreference` argument. -/
structure EState where
  bootstrapped : Bool
  requestID : Nat
  blkReqs : ReqTable
  pending : Nat → Bool
  blocked : List (List Nat × Cont)
  processing : Nat → Option Blk
  decidedCache : LRU Unit
  droppedCache : LRU Blk
  polls : Polls
  cons : Cons
  vmPref : Nat

/-- Result of an engine operation: new state plus event trace. -/
abbrev Res := EState × List Event

/-- `ids.Set.Add` on the pending set. -/
def setAdd (f : Nat → Bool) (i : Nat) : Nat → Bool :=
  fun j => if j = i then true else f j

/-- `ids.Set.Remove` on the pending set. -/
def setRemove (f : Nat → Bool) (i : Nat) : Nat → Bool :=
  fun j => if j = i then false else f j

/-- Go map insertion for the `processing` map. -/
def mapInsert (f : Nat → Option Blk) (k : Nat) (v : Blk) : Nat → Option Blk :=
  fun j => if j = k then some v else f j

/-- Go map deletion for the `processing` map. -/
def mapDelete (f : Nat → Option Blk) (k : Nat) : Nat → Option Blk :=
  fun j => if j = k then none else f j

/-- `Transitive.GetBlock` (lines 748-760): the `processing` map, then
the dropped cache (whose hit promotes recency), then the VM. -/
def engineGetBlock (env : Env) (s : EState) (bid : Nat) : Option Blk × EState :=
  match s.processing bid with
  | some b => (some b, s)
  | none =>
    match (s.droppedCache.get bid).1 with
    | some b => (some b, { s with droppedCache := (s.droppedCache.get bid).2 })
    | none => (env.vmGetBlock bid, s)

/-- `Transitive.sendRequest` (lines 599-613). -/
def sendRequest (s : EState) (vdr blkID : Nat) : Res :=
  if reqContains s.blkReqs blkID then (s, [])
  else
    let rid := s.requestID + 1
    ({ s with requestID := rid, blkReqs := reqAdd s.blkReqs vdr rid blkID },
     [.sendGet vdr rid blkID])

/-- `Transitive.pullSample` (lines 615-634): the request ID is bumped
unconditionally; the poll is registered (and the query sent) only when
sampling succeeded and the poll set accepted the request ID. -/
def pullSample (env : Env) (s : EState) (blkID : Nat) : Res :=
  let rid := s.requestID + 1
  match env.sample with
  | none => ({ s with requestID := rid }, [])
  | some vdrs =>
    if (pollsAdd s.polls rid vdrs).1 then
      ({ s with requestID := rid, polls := (pollsAdd s.polls rid vdrs).2 },
       [.sendPullQuery vdrs.dedup rid blkID])
    else ({ s with requestID := rid }, [])

/-- `Transitive.pushSample` (lines 636-653). -/
def pushSample (env : Env) (s : EState) (blk : Blk) : Res :=
  let rid := s.requestID + 1
  match env.sample with
  | none => ({ s with requestID := rid }, [])
  | some vdrs =>
    if (pollsAdd s.polls rid vdrs).1 then
      ({ s with requestID := rid, polls := (pollsAdd s.polls rid vdrs).2 },
       [.sendPushQuery vdrs.dedup rid blk.bid blk.bytes])
    else ({ s with requestID := rid }, [])

/-- Helper for `repoll`: perform `n` pull samples of the given
preference. -/
def repollAux (env : Env) (pref : Nat) : Nat → EState → Res
  | 0, s => (s, [])
  | n + 1, s =>
    let r1 := pullSample env s pref
    let r2 := repollAux env pref n r1.1
    (r2.1, r1.2 ++ r2.2)

/-- `Transitive.repoll` (lines 458-468): the preference and the poll
count are read once; `ConcurrentRepolls - polls.Len()` pull samples are
issued. -/
def repoll (env : Env) (s : EState) : Res :=
  repollAux env s.cons.pref (env.concurrentRepolls - s.polls.length) s

mutual

/-- Modelled from the spec: `events.Blocker.Abandon(id)` — detach every
continuation waiting on `id` without running it, and propagate the
abandonment through issuers (whose pending mark is cleared and whose
block ID is abandoned in turn). -/
def abandon : Nat → EState → Nat → EState
  | 0, s, _ => s
  | fuel + 1, s, bid =>
    let removed := s.blocked.filter (fun dc => dc.1.contains bid)
    let rest := s.blocked.filter (fun dc => !dc.1.contains bid)
    abandonList fuel { s with blocked := rest } removed

/-- Propagation part of `abandon` over the detached continuations. -/
def abandonList : Nat → EState → List (List Nat × Cont) → EState
  | 0, s, _ => s
  | _, s, [] => s
  | fuel + 1, s, (_, c) :: rest =>
    match c with
    | .issuerC blk =>
      let s1 := { s with pending := setRemove s.pending blk.bid }
      let s2 := abandon fuel s1 blk.bid
      abandonList fuel s2 rest
    | _ => abandonList fuel s rest

end

/-- Abandon each dropped oracle option: `deliver` lines 728-732
(remove from pending, abandon). -/
def abandonDropped : Nat → EState → List Blk → EState
  | 0, s, _ => s
  | _, s, [] => s
  | fuel + 1, s, b :: bs =>
    let s1 := { s with pending := setRemove s.pending b.bid }
    let s2 := abandon fuel s1 b.bid
    abandonDropped fuel s2 bs

/-- Record the cache/processing updates for the blocks a concluded poll
decided. Modelled from the spec: on any accept/reject transition the
decided cache gains the ID, the dropped cache drops it and the block is
unpinned from `processing`. -/
def applyDecisions (s : EState) (ds : List Nat) : EState :=
  ds.foldl
    (fun s d =>
      { s with
        decidedCache := s.decidedCache.put d ()
        droppedCache := s.droppedCache.evict d
        processing := mapDelete s.processing d })
    s

/-- Modelled from the spec: running a voter — record the chit (or the
failure) with the poll for `rid`; when every sampled validator has
responded the poll concludes, `Consensus.RecordPoll` runs (via the
environment's oracle), decided blocks update the caches, and the engine
repolls. -/
def voterRun (env : Env) (s : EState) (vdr rid : Nat) (resp : Option Nat) : Res :=
  match s.polls.find? (fun p => p.rid == rid) with
  | none => (s, [])
  | some p =>
    let outstanding := p.outstanding.erase vdr
    let votes := match resp with
      | some v => p.votes ++ [v]
      | none => p.votes
    if outstanding.isEmpty then
      let polls1 := s.polls.filter (fun q => q.rid != rid)
      let c1 := (env.recordPoll s.cons votes).1
      let decided := (env.recordPoll s.cons votes).2
      let s1 := applyDecisions { s with polls := polls1, cons := c1 } decided
      repoll env s1
    else
      ({ s with polls :=
          s.polls.map (fun q =>
            if q.rid == rid then { q with outstanding := outstanding, votes := votes }
            else q) }, [])

/-- One pass over the oracle options of a delivered block (`deliver`
lines 689-713): verify each option, collect failures as dropped,
`Consensus.Add` the rest, and on immediate rejection update the decided
cache with the option's ID, evict the OUTER block's ID (`blkID`) from
the dropped cache — reproducing the source exactly — and unpin the
option. Returns (state, added list, dropped list, events). -/
def processOpts (env : Env) (outerBid : Nat) :
    EState → List Blk → EState × List Blk × List Blk × List Event
  | s, [] => (s, [], [], [])
  | s, o :: os =>
    if !o.verifyOk then
      let r := processOpts env outerBid s os
      (r.1, r.2.1, o :: r.2.2.1, .verifyCall o :: r.2.2.2)
    else
      let ev := Event.addCall o s.cons.issued
      let s1 := { s with cons := (consAdd env s.cons o).2 }
      let s2 :=
        if (consAdd env s.cons o).1 then
          { s1 with
            decidedCache := s1.decidedCache.put o.bid ()
            droppedCache := s1.droppedCache.evict outerBid
            processing := mapDelete s1.processing o.bid }
        else s1
      let r := processOpts env outerBid s2 os
      (r.1, o :: r.2.1, r.2.2.1, .verifyCall o :: ev :: r.2.2.2)

mutual

/-- Modelled from the spec: running a continuation whose dependencies
have been satisfied. -/
def runCont : Nat → Env → EState → Cont → Res
  | 0, _, s, _ => (s, [])
  | fuel + 1, env, s, c =>
    match c with
    | .issuerC blk => deliver fuel env s blk
    | .convincerC vdr rid => (s, [.sendChits vdr rid [s.cons.pref]])
    | .voterC vdr rid resp => voterRun env s vdr rid resp

/-- Modelled from the spec: `events.Blocker.Register` — run now when the
dependency set is empty, otherwise store. -/
def register : Nat → Env → EState → List Nat → Cont → Res
  | 0, _, s, _, _ => (s, [])
  | fuel + 1, env, s, deps, c =>
    if deps.isEmpty then runCont fuel env s c
    else ({ s with blocked := s.blocked ++ [(deps, c)] }, [])

/-- Modelled from the spec: `events.Blocker.Fulfill(id)` — erase `id`
from every stored dependency set, snapshot the continuations that became
ready (in registration order), and run them. -/
def fulfill : Nat → Env → EState → Nat → Res
  | 0, _, s, _ => (s, [])
  | fuel + 1, env, s, bid =>
    let updated := s.blocked.map (fun dc => (dc.1.filter (fun d => d != bid), dc.2))
    let ready := (updated.filter (fun dc => dc.1.isEmpty)).map (fun dc => dc.2)
    let rest := updated.filter (fun dc => !dc.1.isEmpty)
    runConts fuel env { s with blocked := rest } ready

/-- Run a ready list of continuations in order. -/
def runConts : Nat → Env → EState → List Cont → Res
  | 0, _, s, _ => (s, [])
  | _, _, s, [] => (s, [])
  | fuel + 1, env, s, c :: cs =>
    let r1 := runCont fuel env s c
    let r2 := runConts fuel env r1.1 cs
    (r2.1, r1.2 ++ r2.2)

/-- `Transitive.deliver` (lines 655-741). -/
def deliver : Nat → Env → EState → Blk → Res
  | 0, _, s, _ => (s, [])
  | fuel + 1, env, s, blk =>
    if consIssued s.cons blk then (s, [])
    else
      let s1 := { s with pending := setRemove s.pending blk.bid }
      if !blk.verifyOk then
        let s2 := { s1 with
          processing := mapDelete s1.processing blk.bid
          droppedCache := s1.droppedCache.put blk.bid blk }
        let s3 := abandon fuel s2 blk.bid
        (s3, [.verifyCall blk])
      else
        let addEv := Event.addCall blk s1.cons.issued
        let s2 := { s1 with cons := (consAdd env s1.cons blk).2 }
        let s3 :=
          if (consAdd env s1.cons blk).1 then
            { s2 with
              decidedCache := s2.decidedCache.put blk.bid ()
              droppedCache := s2.droppedCache.evict blk.bid
              processing := mapDelete s2.processing blk.bid }
          else s2
        match blk.oracle with
        | some none => (s3, [.verifyCall blk, addEv])
        | some (some (o1, o2)) =>
          let r := processOpts env blk.bid s3 [o1, o2]
          deliverTail fuel env r.1 blk r.2.1 r.2.2.1
            (.verifyCall blk :: addEv :: r.2.2.2)
        | none => deliverTail fuel env s3 blk [] [] [.verifyCall blk, addEv]

/-- Tail of `deliver` (lines 715-740): set the VM preference, push-query
the delivered block, fulfill it, handle added and dropped options, and
repoll. -/
def deliverTail : Nat → Env → EState → Blk → List Blk → List Blk → List Event → Res
  | 0, _, s, _, _, _, evs => (s, evs)
  | fuel + 1, env, s, blk, addedL, droppedL, evs =>
    let s5 := { s with vmPref := s.cons.pref }
    let r6 := pushSample env s5 blk
    let r7 := fulfill fuel env r6.1 blk.bid
    let r8 := fulfillAdded fuel env r7.1 addedL
    let s9 := abandonDropped fuel r8.1 droppedL
    let r10 := repoll env s9
    (r10.1, evs ++ r6.2 ++ r7.2 ++ r8.2 ++ r10.2)

/-- Added-options loop of `deliver` (lines 721-727): push-query, remove
from pending, fulfill. -/
def fulfillAdded : Nat → Env → EState → List Blk → Res
  | 0, _, s, _ => (s, [])
  | _, _, s, [] => (s, [])
  | fuel + 1, env, s, b :: bs =>
    let r1 := pushSample env s b
    let s2 := { r1.1 with pending := setRemove r1.1.pending b.bid }
    let r3 := fulfill fuel env s2 b.bid
    let r4 := fulfillAdded fuel env r3.1 bs
    (r4.1, r1.2 ++ r3.2 ++ r4.2)

end

/-- `Transitive.issue` (lines 562-597): mark pending, drop outstanding
requests for the block, compute the issuer's dependency on the parent
(empty when the parent is in the decided cache or locally fetched and
already issued), and register the issuer. -/
def issue (fuel : Nat) (env : Env) (s : EState) (blk : Blk) : Res :=
  let s1 := { s with
    pending := setAdd s.pending blk.bid
    blkReqs := reqRemoveAny s.blkReqs blk.bid }
  let parentID := blk.parent
  let s2 := { s1 with decidedCache := (s1.decidedCache.get parentID).2 }
  let pr : Bool × EState :=
    if (s1.decidedCache.get parentID).1.isSome then (true, s2)
    else
      match (engineGetBlock env s2 parentID).1 with
      | some p => (consIssued (engineGetBlock env s2 parentID).2.cons p,
                   (engineGetBlock env s2 parentID).2)
      | none => (false, (engineGetBlock env s2 parentID).2)
  let deps := if pr.1 then ([] : List Nat) else [parentID]
  let r := register fuel env pr.2 deps (.issuerC blk)
  (r.1, .issueCall blk :: r.2)

/-- `Transitive.issueFrom` (lines 497-524), walking rootward; `blkID`
tracks the source's loop variable (initially `blk.ID()`). -/
def issueFrom : Nat → Env → Nat → EState → Nat → Blk → Bool × EState × List Event
  | 0, _, _, s, _, blk => (consIssued s.cons blk, s, [])
  | fuel + 1, env, vdr, s, blkID, blk =>
    if consIssued s.cons blk || s.pending blkID then (consIssued s.cons blk, s, [])
    else
      let r1 := issue fuel env s blk
      let pid := blk.parent
      let s2 := { r1.1 with decidedCache := (r1.1.decidedCache.get pid).2 }
      if (r1.1.decidedCache.get pid).1.isSome then (consIssued s2.cons blk, s2, r1.2)
      else
        match (engineGetBlock env s2 pid).1 with
        | some p =>
          if p.status.fetched then
            let r4 := issueFrom fuel env vdr (engineGetBlock env s2 pid).2 pid p
            (r4.1, r4.2.1, r1.2 ++ r4.2.2)
          else
            let r4 := sendRequest (engineGetBlock env s2 pid).2 vdr pid
            (false, r4.1, r1.2 ++ r4.2)
        | none =>
          let r4 := sendRequest (engineGetBlock env s2 pid).2 vdr pid
          (false, r4.1, r1.2 ++ r4.2)

/-- `Transitive.issueFromByID` (lines 470-495). -/
def issueFromByID (fuel : Nat) (env : Env) (vdr : Nat) (s : EState) (blkID : Nat) :
    Bool × EState × List Event :=
  let s1 := { s with decidedCache := (s.decidedCache.get blkID).2 }
  if (s.decidedCache.get blkID).1.isSome then (true, s1, [])
  else
    match (engineGetBlock env s1 blkID).1 with
    | none =>
      let r3 := sendRequest (engineGetBlock env s1 blkID).2 vdr blkID
      (false, r3.1, r3.2)
    | some blk =>
      if blk.status.decided then
        (true, { (engineGetBlock env s1 blkID).2 with
                  decidedCache := (engineGetBlock env s1 blkID).2.decidedCache.put blkID () }, [])
      else issueFrom fuel env vdr (engineGetBlock env s1 blkID).2 blkID blk

/-- `Transitive.issueWithAncestors` (lines 526-560); `blkID` tracks the
source's loop variable. When an ancestor is not available locally the
missing-block sentinel is substituted, whose Unknown status stops the
walk. -/
def issueWithAncestors : Nat → Env → EState → Nat → Blk → Bool × EState × List Event
  | 0, _, s, _, blk => (consIssued s.cons blk, s, [])
  | fuel + 1, env, s, blkID, blk =>
    if blk.status.fetched && !consIssued s.cons blk && !s.pending blkID then
      let r1 := issue fuel env s blk
      let pid := blk.parent
      let nextBlk := match (engineGetBlock env r1.1 pid).1 with
        | some p => p
        | none => Blk.missing pid
      let r3 := issueWithAncestors fuel env (engineGetBlock env r1.1 pid).2 pid nextBlk
      (r3.1, r3.2.1, r1.2 ++ r3.2.2)
    else
      if consIssued s.cons blk then (true, s, [])
      else if reqContains s.blkReqs blkID then (false, s, [])
      else (false, abandon fuel s blkID, [])

/-- `wrappers.IntLen`. Modelled from the spec: the width of each
container's length prefix (4 bytes). -/
def intLen : Nat := 4

/-- `network.DefaultMaxMessageSize`. Modelled from the spec: the
constant lives in the network package, which is not in this snapshot;
its released value 2²¹ is used. -/
def defaultMaxMessageSize : Nat := 2 ^ 21

/-- `maxContainersLen` (line 29): `4 * DefaultMaxMessageSize / 5`. -/
def maxContainersLen : Nat := 4 * defaultMaxMessageSize / 5

/-- `common.MaxContainersPerMultiPut`. Modelled from the spec: the cap
on containers per MultiPut (2000). -/
def maxContainersPerMultiPut : Nat := 2000

/-- Ancestor-collection loop of `GetAncestors` (lines 196-211).
`timeOK` models the wall-clock check `time.Since(startTime) <
MaxTimeFetchingAncestors` at each iteration; `accLen` is
`ancestorsBytesLen`. -/
def getAncestorsLoop (env : Env) (timeOK : Nat → Bool) :
    Nat → EState → Blk → List Bytes → Nat → EState × List Bytes
  | 0, s, _, acc, _ => (s, acc)
  | fuel + 1, s, blk, acc, accLen =>
    if !timeOK (fuel + 1) then (s, acc)
    else
      match (engineGetBlock env s blk.parent).1 with
      | none => ((engineGetBlock env s blk.parent).2, acc)
      | some b =>
        let bb := b.bytes
        let newLen := intLen + accLen + bb.length
        if newLen < maxContainersLen then
          getAncestorsLoop env timeOK fuel (engineGetBlock env s blk.parent).2 b
            (acc ++ [bb]) newLen
        else ((engineGetBlock env s blk.parent).2, acc)

/-- `Transitive.GetAncestors` (lines 183-215). Note: no bootstrap
check. -/
def Transitive.GetAncestors (env : Env) (timeOK : Nat → Bool) (s : EState)
    (vdr rid bid : Nat) : Res :=
  match (engineGetBlock env s bid).1 with
  | none => ((engineGetBlock env s bid).2, [])
  | some blk =>
    let r := getAncestorsLoop env timeOK (maxContainersPerMultiPut - 1)
      (engineGetBlock env s bid).2 blk [blk.bytes] (blk.bytes.length + intLen)
    (r.1, [.sendMultiPut vdr rid r.2])

/-- `Transitive.Get` (lines 167-181). Note: no bootstrap check. -/
def Transitive.Get (env : Env) (s : EState) (vdr rid bid : Nat) : Res :=
  match (engineGetBlock env s bid).1 with
  | none => ((engineGetBlock env s bid).2, [])
  | some blk => ((engineGetBlock env s bid).2, [.sendPut vdr rid bid blk.bytes])

/-- `Transitive.GetFailed` (lines 254-273). -/
def Transitive.GetFailed (fuel : Nat) (_env : Env) (s : EState) (vdr rid : Nat) : Res :=
  if !s.bootstrapped then (s, [])
  else
    match reqRemove s.blkReqs vdr rid with
    | (none, _) => (s, [])
    | (some bid, reqs1) => (abandon fuel { s with blkReqs := reqs1 } bid, [])

/-- `Transitive.Put` (lines 217-252): drop while bootstrapping; a parse
failure routes to `GetFailed`; a Processing block is pinned (and the
declared ID evicted from the dropped cache) before `issueFrom`. -/
def Transitive.Put (fuel : Nat) (env : Env) (s : EState) (vdr rid bid : Nat)
    (bytes : Bytes) : Res :=
  if !s.bootstrapped then (s, [])
  else
    match env.parseBlock bytes with
    | none => Transitive.GetFailed fuel env s vdr rid
    | some blk =>
      let s1 :=
        if blk.status = .processing then
          { s with
            processing := mapInsert s.processing blk.bid blk
            droppedCache := s.droppedCache.evict bid }
        else s
      let r2 := issueFrom fuel env vdr s1 blk.bid blk
      (r2.2.1, r2.2.2)

/-- `Transitive.PullQuery` (lines 275-306): build a convincer, try to
issue the block, block the convincer on it when not yet added. -/
def Transitive.PullQuery (fuel : Nat) (env : Env) (s : EState) (vdr rid bid : Nat) : Res :=
  if !s.bootstrapped then (s, [])
  else
    let r1 := issueFromByID fuel env vdr s bid
    let deps := if r1.1 then ([] : List Nat) else [bid]
    let r2 := register fuel env r1.2.1 deps (.convincerC vdr rid)
    (r2.1, r1.2.2 ++ r2.2)

/-- `Transitive.PushQuery` (lines 308-342): parse, check the declared
ID, pin a Processing block, `issueFrom`, then fall through to
`PullQuery`. -/
def Transitive.PushQuery (fuel : Nat) (env : Env) (s : EState) (vdr rid bid : Nat)
    (bytes : Bytes) : Res :=
  if !s.bootstrapped then (s, [])
  else
    match env.parseBlock bytes with
    | none => (s, [])
    | some blk =>
      if blk.bid ≠ bid then (s, [])
      else
        let s1 :=
          if blk.status = .processing then
            { s with
              processing := mapInsert s.processing bid blk
              droppedCache := s.droppedCache.evict bid }
          else s
        let r2 := issueFrom fuel env vdr s1 blk.bid blk
        let r3 := Transitive.PullQuery fuel env r2.2.1 vdr rid bid
        (r3.1, r2.2.2 ++ r3.2)

/-- `Transitive.QueryFailed` (lines 386-400): register a voter with no
response and no dependencies. -/
def Transitive.QueryFailed (fuel : Nat) (env : Env) (s : EState) (vdr rid : Nat) : Res :=
  if !s.bootstrapped then (s, [])
  else register fuel env s [] (.voterC vdr rid none)

/-- `Transitive.Chits` (lines 344-384): a vote set whose size is not 1
routes to `QueryFailed`; otherwise a voter for the single vote is
registered, blocked on the vote when not yet issued. -/
def Transitive.Chits (fuel : Nat) (env : Env) (s : EState) (vdr rid : Nat)
    (votes : List Nat) : Res :=
  if !s.bootstrapped then (s, [])
  else if votes.length ≠ 1 then Transitive.QueryFailed fuel env s vdr rid
  else
    let bid := votes.headD 0
    let r1 := issueFromByID fuel env vdr s bid
    let deps := if r1.1 then ([] : List Nat) else [bid]
    let r2 := register fuel env r1.2.1 deps (.voterC vdr rid (some bid))
    (r2.1, r1.2.2 ++ r2.2)

/-- The `common.Message` values `Notify` can receive. -/
inductive NotifyMsg where
  | pendingTxs
  | other

/-- `Transitive.Notify` (lines 402-456): on PendingTxs build a block,
validate it (Processing status, not pending, not issued), pin it, and
issue it with its ancestors. -/
def Transitive.Notify (fuel : Nat) (env : Env) (s : EState) (msg : NotifyMsg) : Res :=
  if !s.bootstrapped then (s, [])
  else
    match msg with
    | .other => (s, [])
    | .pendingTxs =>
      match env.buildBlock with
      | none => (s, [])
      | some blk =>
        if blk.status ≠ .processing then (s, [])
        else if s.pending blk.bid || consIssued s.cons blk then (s, [])
        else
          let s1 := { s with
            processing := mapInsert s.processing blk.bid blk
            droppedCache := s.droppedCache.evict blk.bid }
          let r2 := issueWithAncestors fuel env s1 blk.bid blk
          (r2.2.1, r2.2.2)

/-- `Transitive.Gossip` (lines 148-159). Note: no bootstrap check. -/
def Transitive.Gossip (env : Env) (s : EState) : Res :=
  match (engineGetBlock env s env.lastAccepted).1 with
  | none => ((engineGetBlock env s env.lastAccepted).2, [])
  | some blk => ((engineGetBlock env s env.lastAccepted).2,
      [.sendGossip env.lastAccepted blk.bytes])

/-- `Transitive.finishBootstrapping` (lines 110-146): the consensus core
is initialized with the VM's last accepted ID; when the last accepted
block is an oracle block its options are delivered, otherwise the VM
preference is set to the last accepted ID. -/
def Transitive.finishBootstrapping (fuel : Nat) (env : Env) (s : EState) : Res :=
  let la := env.lastAccepted
  let s1 := { s with cons := ⟨[la], la⟩ }
  match env.vmGetBlock la with
  | none => (s1, [])
  | some blk =>
    match blk.oracle with
    | some none => (s1, [])
    | some (some (o1, o2)) =>
      let ra := deliver fuel env s1 o1
      let rb := deliver fuel env ra.1 o2
      ({ rb.1 with bootstrapped := true }, ra.2 ++ rb.2)
    | none => ({ s1 with vmPref := la, bootstrapped := true }, [])

/-- The engine state as it stands when `Initialize` (lines 81-108) has
run but bootstrapping has not finished: empty maps and caches (decided
cache capacity 5000, dropped cache capacity 1000, lines 31-36). -/
def freshState : EState where
  bootstrapped := false
  requestID := 0
  blkReqs := []
  pending := fun _ => false
  blocked := []
  processing := fun _ => none
  decidedCache := ⟨5000, []⟩
  droppedCache := ⟨1000, []⟩
  polls := []
  cons := ⟨[], 0⟩
  vmPref := 0

/-- The blocks the environment can ever hand to the engine: results of
`ParseBlock`, `GetBlock`, `BuildBlock`, and options of such blocks. -/
inductive EnvBlk (env : Env) : Blk → Prop where
  | parse {bs b} : env.parseBlock bs = some b → EnvBlk env b
  | vmGet {i b} : env.vmGetBlock i = some b → EnvBlk env b
  | build {b} : env.buildBlock = some b → EnvBlk env b
  | optL {b o1 o2} : EnvBlk env b → b.oracle = some (some (o1, o2)) → EnvBlk env o1
  | optR {b o1 o2} : EnvBlk env b → b.oracle = some (some (o1, o2)) → EnvBlk env o2

/-- The ID belongs to a block the environment knows to be decided
(Accepted or Rejected). -/
def DecidedId (env : Env) (i : Nat) : Prop :=
  ∃ b, EnvBlk env b ∧ b.bid = i ∧ b.status.decided = true

/-- Well-formedness of the collaborators, by their contracts in the
spec: the VM's store is keyed coherently; options carry their oracle
block as parent; `RecordPoll` only decides issued blocks and never
un-issues a block; the last accepted block reports a decided status. -/
structure EnvWF (env : Env) : Prop where
  vmGetCoherent : ∀ i b, env.vmGetBlock i = some b → b.bid = i
  optParent : ∀ b o1 o2, EnvBlk env b → b.oracle = some (some (o1, o2)) →
    o1.parent = b.bid ∧ o2.parent = b.bid
  recordPollDecides : ∀ c votes d, d ∈ (env.recordPoll c votes).2 → d ∈ c.issued
  recordPollMono : ∀ c votes i, i ∈ c.issued → i ∈ (env.recordPoll c votes).1.issued
  lastAcceptedDecided : ∀ b, env.vmGetBlock env.lastAccepted = some b →
    b.status.decided = true

/-- One engine entry point firing, with the trace it produces. -/
inductive HStep (env : Env) : EState → EState → List Event → Prop where
  | finishBoot (fuel : Nat) (s : EState) (h : s.bootstrapped = false) :
      HStep env s (Transitive.finishBootstrapping fuel env s).1
        (Transitive.finishBootstrapping fuel env s).2
  | get (s : EState) (vdr rid bid : Nat) :
      HStep env s (Transitive.Get env s vdr rid bid).1 (Transitive.Get env s vdr rid bid).2
  | getAncestors (timeOK : Nat → Bool) (s : EState) (vdr rid bid : Nat) :
      HStep env s (Transitive.GetAncestors env timeOK s vdr rid bid).1
        (Transitive.GetAncestors env timeOK s vdr rid bid).2
  | put (fuel : Nat) (s : EState) (vdr rid bid : Nat) (bytes : Bytes) :
      HStep env s (Transitive.Put fuel env s vdr rid bid bytes).1
        (Transitive.Put fuel env s vdr rid bid bytes).2
  | getFailed (fuel : Nat) (s : EState) (vdr rid : Nat) :
      HStep env s (Transitive.GetFailed fuel env s vdr rid).1
        (Transitive.GetFailed fuel env s vdr rid).2
  | pullQuery (fuel : Nat) (s : EState) (vdr rid bid : Nat) :
      HStep env s (Transitive.PullQuery fuel env s vdr rid bid).1
        (Transitive.PullQuery fuel env s vdr rid bid).2
  | pushQuery (fuel : Nat) (s : EState) (vdr rid bid : Nat) (bytes : Bytes) :
      HStep env s (Transitive.PushQuery fuel env s vdr rid bid bytes).1
        (Transitive.PushQuery fuel env s vdr rid bid bytes).2
  | chits (fuel : Nat) (s : EState) (vdr rid : Nat) (votes : List Nat) :
      HStep env s (Transitive.Chits fuel env s vdr rid votes).1
        (Transitive.Chits fuel env s vdr rid votes).2
  | queryFailed (fuel : Nat) (s : EState) (vdr rid : Nat) :
      HStep env s (Transitive.QueryFailed fuel env s vdr rid).1
        (Transitive.QueryFailed fuel env s vdr rid).2
  | notify (fuel : Nat) (s : EState) (msg : NotifyMsg) :
      HStep env s (Transitive.Notify fuel env s msg).1
        (Transitive.Notify fuel env s msg).2
  | gossip (s : EState) :
      HStep env s (Transitive.Gossip env s).1 (Transitive.Gossip env s).2

/-- Reachable engine states: the fresh engine, closed under entry
points. -/
inductive Reach (env : Env) : EState → Prop where
  | init : Reach env freshState
  | step {s s' tr} : Reach env s → HStep env s s' tr → Reach env s'

/-- Every `Consensus.Add` call in the trace happened with the added
block's parent already issued at call time, or with the parent decided
(Accepted or Rejected). -/
def AddsOK (env : Env) (tr : List Event) : Prop :=
  ∀ blk issuedAt, Event.addCall blk issuedAt ∈ tr →
    blk.parent ∈ issuedAt ∨ DecidedId env blk.parent

/-- The consensus `issued` set only grows from `s` to `s'`. -/
def IssuedMono (s s' : EState) : Prop :=
  ∀ i, i ∈ s.cons.issued → i ∈ s'.cons.issued

/-- Precondition for running a continuation: an issuer's block comes
from the environment and its parent is already issued or decided. -/
def ContOK (env : Env) (s : EState) : Cont → Prop
  | .issuerC blk => EnvBlk env blk ∧ (blk.parent ∈ s.cons.issued ∨ DecidedId env blk.parent)
  | _ => True

/-- Precondition for registering a continuation: an issuer carries its
parent as sole dependency, or is ready with the parent issued or
decided. -/
def RegOK (env : Env) (s : EState) (deps : List Nat) : Cont → Prop
  | .issuerC blk => EnvBlk env blk ∧
      (deps = [] → blk.parent ∈ s.cons.issued ∨ DecidedId env blk.parent) ∧
      (deps ≠ [] → deps = [blk.parent])
  | _ => True

/-- The inductive invariant of the engine: stored issuers wait exactly
on their block's parent; decided-cache keys are issued or decided;
`processing` and the dropped cache are keyed coherently with
environment blocks; the decided cache is empty until bootstrap
finishes. -/
def Inv (env : Env) (s : EState) : Prop :=
  (∀ p ∈ s.blocked, ∀ blk, p.2 = Cont.issuerC blk → p.1 = [blk.parent] ∧ EnvBlk env blk) ∧
  (∀ e ∈ s.decidedCache.entries, e.1 ∈ s.cons.issued ∨ DecidedId env e.1) ∧
  (∀ i b, s.processing i = some b → b.bid = i ∧ EnvBlk env b) ∧
  (∀ e ∈ s.droppedCache.entries, e.1 = e.2.bid ∧ EnvBlk env e.2)

/-- The invariant together with the pre-bootstrap facts: before the
bootstrap handoff the decided cache and the Blocker are empty (no
guarded handler has run). -/
def InvB (env : Env) (s : EState) : Prop :=
  Inv env s ∧
  (s.bootstrapped = false → s.decidedCache.entries = [] ∧ s.blocked = [])

/-- The conclusion bundle of the invariant-preservation lemmas: the
invariant holds in the new state, the issued set only grew, the
bootstrap flag is untouched, and every `Consensus.Add` in the trace saw
its block's parent issued or decided. -/
def StepOK (env : Env) (s : EState) (r : Res) : Prop :=
  Inv env r.1 ∧ IssuedMono s r.1 ∧ r.1.bootstrapped = s.bootstrapped ∧ AddsOK env r.2

/-! Concrete environments and states used to instantiate theorems with
hypotheses and to exhibit counterexamples. -/

/-- An inert environment: no blocks anywhere, no validators. -/
def envTriv : Env where
  k := 1
  concurrentRepolls := 1
  parseBlock := fun _ => none
  vmGetBlock := fun _ => none
  buildBlock := none
  lastAccepted := 0
  sample := none
  rejFn := fun _ => false
  prefFn := fun _ p => p
  recordPoll := fun c _ => (c, [])

/-- A plain processing block with ID 5 on parent 0. -/
def blkW : Blk := .node ⟨5, 0, 1, [1], .processing, true, true, true⟩ none

/-- A bootstrapped state in which block 5 is already issued. -/
def stateW : EState :=
  { freshState with bootstrapped := true, cons := ⟨[5], 5⟩ }

/-- The accepted genesis-like block with ID 1 used by several concrete
runs. -/
def blkG : Blk := .node ⟨1, 0, 0, [9], .accepted, true, true, true⟩ none

/-- An environment whose VM holds only `blkG`; used to show that `Get`
answers while bootstrapping is unfinished. -/
def envG : Env :=
  { envTriv with vmGetBlock := fun i => if i = 1 then some blkG else none }

/-- A processing block (ID 10, parent 1). -/
def blkA : Blk := .node ⟨10, 1, 1, [1], .processing, true, true, true⟩ none

/-- A processing block (ID 11, parent 10). -/
def blkB : Blk := .node ⟨11, 10, 2, [2], .processing, true, true, true⟩ none

/-- First option (ID 21) of the last-accepted oracle block. -/
def optO1 : Blk := .node ⟨21, 20, 1, [4], .processing, true, true, true⟩ none

/-- Second option (ID 22) of the last-accepted oracle block. -/
def optO2 : Blk := .node ⟨22, 20, 1, [5], .processing, true, true, true⟩ none

/-- The last accepted block (ID 20), an oracle block with two options. -/
def oracleLA : Blk := .node ⟨20, 0, 0, [6], .accepted, true, true, true⟩ (some (some (optO1, optO2)))

/-- Environment for the poll-count counterexample: one validator,
`ConcurrentRepolls = 1`, and bootstrap lands on the oracle block whose
two options are both delivered. -/
def envC4 : Env where
  k := 1
  concurrentRepolls := 1
  parseBlock := fun _ => none
  vmGetBlock := fun i => if i = 20 then some oracleLA else none
  buildBlock := none
  lastAccepted := 20
  sample := some [5]
  rejFn := fun _ => false
  prefFn := fun issued _ => issued.headD 0
  recordPoll := fun c _ => (c, [])

/-- A processing block (ID 2, parent 1) whose `Verify` fails. -/
def blkBad : Blk := .node ⟨2, 1, 1, [1], .processing, false, true, true⟩ none

/-- First option (ID 11) of the oracle block `oracleO`. -/
def optP : Blk := .node ⟨11, 10, 2, [2], .processing, true, true, true⟩ none

/-- Second option (ID 12) of the oracle block `oracleO`. -/
def optQ : Blk := .node ⟨12, 10, 2, [3], .processing, true, true, true⟩ none

/-- An oracle block (ID 10, parent 1) with options 11 and 12. -/
def oracleO : Blk := .node ⟨10, 1, 1, [1], .processing, true, true, true⟩ (some (some (optP, optQ)))

/-- Environment in which `Consensus.Add` immediately rejects block 11
(the first oracle option). -/
def envC3 : Env := { envTriv with rejFn := fun i => i == 11 }

/-- A bootstrapped state holding the oracle block and its first option,
with the first option also sitting in the dropped cache. -/
def sC3 : EState := { freshState with
  bootstrapped := true
  cons := ⟨[1], 1⟩
  pending := fun j => j == 10
  processing := fun j => if j = 10 then some oracleO else if j = 11 then some optP else none
  droppedCache := ⟨1000, [(11, optP)]⟩ }

/-- Total wire size of a MultiPut container list: each container
contributes its own bytes plus an `IntLen`-byte length prefix. -/
def multiPutSize (cs : List Bytes) : Nat :=
  (cs.map (fun c => intLen + c.length)).sum

/-- An accepted block whose byte representation alone fills the whole
`maxContainersLen` budget. -/
def bigBlk : Blk := .node ⟨3, 0, 1, List.replicate 1677721 0, .accepted, true, true, true⟩ none

/-- Environment whose VM holds only `bigBlk`. -/
def envBig : Env :=
  { envTriv with vmGetBlock := fun i => if i = 3 then some bigBlk else none }

/-- State after bootstrap finishes in `envC4`: both oracle options are
delivered, and each `pushSample` registers a poll. -/
def c4s1 : EState := (Transitive.finishBootstrapping 6 envC4 freshState).1

/-- Environment for the repeated-`Put` analysis: the wire bytes `[1]`
parse to the verify-failing block `blkBad` (ID 2, parent 1), and the VM
holds the accepted parent `blkG`. -/
def envC8 : Env :=
  { envTriv with
    parseBlock := fun bs => if bs = [1] then some blkBad else none
    vmGetBlock := fun i => if i = 1 then some blkG else none }

/-- A bootstrapped state with block 1 issued. -/
def sC8 : EState := { freshState with bootstrapped := true, cons := ⟨[1], 1⟩ }

/-- State after a first `Put` of `blkBad`, whose delivery drops it on
verification failure. -/
def sC8a : EState := (Transitive.Put 6 envC8 sC8 1 1 2 [1]).1

/-- A bootstrapped state in which `blkBad` is pending and pinned — the
situation after a first `Put` whose issuance is waiting on an
unresolved parent. -/
def sC8w : EState :=
  { freshState with
    bootstrapped := true
    pending := fun j => j == 2
    processing := fun j => if j = 2 then some blkBad else none }

end SnowmanEngine

namespace SnowmanEngine

/-! ## Theorems -/

/-- Claim C10: for every block already issued to consensus, `deliver`
returns immediately (line 657-659) with the engine state unchanged, no
events sent, and neither `Verify` nor `Consensus.Add` called. -/
theorem C10_deliver_issued_noop (fuel : Nat) (env : Env) (s : EState) (blk : Blk)
    (h : consIssued s.cons blk = true) :
    deliver fuel env s blk = (s, []) := by
  cases fuel with
  | zero => rfl
  | succ f => simp [deliver, h]

/-- Witness for C10 at a concrete issued block. -/
theorem C10_witness :
    consIssued stateW.cons blkW = true ∧ deliver 7 envTriv stateW blkW = (stateW, []) :=
  ⟨rfl, C10_deliver_issued_noop 7 envTriv stateW blkW rfl⟩

/-- Claim C6: `Chits` with a vote set whose size is not 1 produces
exactly the same state and effects as `QueryFailed` (lines 353-359). -/
theorem C6_chits_offsize_is_queryfailed (fuel : Nat) (env : Env) (s : EState)
    (vdr rid : Nat) (votes : List Nat) (h : votes.length ≠ 1) :
    Transitive.Chits fuel env s vdr rid votes = Transitive.QueryFailed fuel env s vdr rid := by
  by_cases hb : s.bootstrapped
  · simp [Transitive.Chits, hb, h]
  · simp [Transitive.Chits, Transitive.QueryFailed, hb]

/-- Witness for C6 with an empty vote set. -/
theorem C6_witness :
    ([] : List Nat).length ≠ 1 ∧
      Transitive.Chits 5 envTriv stateW 1 2 [] = Transitive.QueryFailed 5 envTriv stateW 1 2 :=
  ⟨by decide, C6_chits_offsize_is_queryfailed 5 envTriv stateW 1 2 [] (by decide)⟩

/-- Counterexample to claim C2 as stated: while `IsBootstrapped()` is
false, `Get` (lines 167-181, which has no bootstrap check) still sends a
`Put` message for a block the engine holds. -/
theorem C2_counterexample :
    freshState.bootstrapped = false ∧
      (Transitive.Get envG freshState 1 2 1).2 ≠ [] := by
  constructor
  · rfl
  · have h : (Transitive.Get envG freshState 1 2 1).2 = [Event.sendPut 1 2 1 [9]] := rfl
    rw [h]
    simp

/-- Claim C2 amended: while `IsBootstrapped()` is false the handlers
`Put`, `GetFailed`, `PullQuery`, `PushQuery`, `Chits`, `QueryFailed` and
`Notify` are no-ops (state unchanged, nothing sent); `Get`,
`GetAncestors` and `Gossip` answer regardless of bootstrap status. -/
theorem C2_amended_unbootstrapped_noops (fuel : Nat) (env : Env) (s : EState)
    (vdr rid bid : Nat) (bytes : Bytes) (votes : List Nat) (msg : NotifyMsg)
    (h : s.bootstrapped = false) :
    Transitive.Put fuel env s vdr rid bid bytes = (s, []) ∧
    Transitive.GetFailed fuel env s vdr rid = (s, []) ∧
    Transitive.PullQuery fuel env s vdr rid bid = (s, []) ∧
    Transitive.PushQuery fuel env s vdr rid bid bytes = (s, []) ∧
    Transitive.Chits fuel env s vdr rid votes = (s, []) ∧
    Transitive.QueryFailed fuel env s vdr rid = (s, []) ∧
    Transitive.Notify fuel env s msg = (s, []) := by
  refine ⟨?_, ?_, ?_, ?_, ?_, ?_, ?_⟩ <;>
    simp [Transitive.Put, Transitive.GetFailed, Transitive.PullQuery,
      Transitive.PushQuery, Transitive.Chits, Transitive.QueryFailed,
      Transitive.Notify, h]

/-- Claim C7: when `deliver` reaches a block that is not yet issued and
whose `Verify()` errors (lines 666-674), the block leaves `pending`, is
unpinned from `processing`, enters the dropped cache under its own ID,
and `blocker.Abandon(blkID)` runs; `Consensus.Add` is never called (the
trace holds only the `Verify` call). -/
theorem C7_deliver_verify_failure (fuel : Nat) (env : Env) (s : EState) (blk : Blk)
    (h1 : consIssued s.cons blk = false) (h2 : blk.verifyOk = false) :
    deliver (fuel + 1) env s blk =
      (abandon fuel
        { s with
          pending := setRemove s.pending blk.bid
          processing := mapDelete s.processing blk.bid
          droppedCache := s.droppedCache.put blk.bid blk }
        blk.bid,
       [Event.verifyCall blk]) := by
  simp [deliver, h1, h2]

/-- Witness for C7 at a concrete block failing verification. -/
theorem C7_witness :
    consIssued stateW.cons blkBad = false ∧ blkBad.verifyOk = false ∧
      deliver (3 + 1) envTriv stateW blkBad =
        (abandon 3
          { stateW with
            pending := setRemove stateW.pending blkBad.bid
            processing := mapDelete stateW.processing blkBad.bid
            droppedCache := stateW.droppedCache.put blkBad.bid blkBad }
          blkBad.bid,
         [Event.verifyCall blkBad]) :=
  ⟨rfl, rfl, C7_deliver_verify_failure 3 envTriv stateW blkBad rfl rfl⟩

/-- Witness for the amended C2 at the fresh engine state. -/
theorem C2_amended_witness :
    freshState.bootstrapped = false ∧
      Transitive.Put 3 envTriv freshState 1 2 3 [] = (freshState, []) ∧
      Transitive.GetFailed 3 envTriv freshState 1 2 = (freshState, []) ∧
      Transitive.PullQuery 3 envTriv freshState 1 2 3 = (freshState, []) ∧
      Transitive.PushQuery 3 envTriv freshState 1 2 3 [] = (freshState, []) ∧
      Transitive.Chits 3 envTriv freshState 1 2 [] = (freshState, []) ∧
      Transitive.QueryFailed 3 envTriv freshState 1 2 = (freshState, []) ∧
      Transitive.Notify 3 envTriv freshState .pendingTxs = (freshState, []) :=
  ⟨rfl, C2_amended_unbootstrapped_noops 3 envTriv freshState 1 2 3 [] [] .pendingTxs rfl⟩

/-! Trace lemmas: no part of the continuation cascade calls `issue`, so
`issueCall` events originate only in the issuance walks themselves. -/

theorem issueCall_notMem_sendRequest (s : EState) (vdr bid : Nat) (b : Blk) :
    Event.issueCall b ∉ (sendRequest s vdr bid).2 := by
  unfold sendRequest
  split <;> simp

theorem issueCall_notMem_pullSample (env : Env) (s : EState) (bid : Nat) (b : Blk) :
    Event.issueCall b ∉ (pullSample env s bid).2 := by
  unfold pullSample
  cases env.sample with
  | none => simp
  | some vdrs =>
    dsimp only
    split <;> simp

theorem issueCall_notMem_pushSample (env : Env) (s : EState) (blk : Blk) (b : Blk) :
    Event.issueCall b ∉ (pushSample env s blk).2 := by
  unfold pushSample
  cases env.sample with
  | none => simp
  | some vdrs =>
    dsimp only
    split <;> simp

theorem issueCall_notMem_repollAux (env : Env) (pref : Nat) :
    ∀ (n : Nat) (s : EState) (b : Blk), Event.issueCall b ∉ (repollAux env pref n s).2 := by
  intro n
  induction n with
  | zero => intro s b; simp [repollAux]
  | succ n ih =>
    intro s b h
    simp only [repollAux] at h
    rcases List.mem_append.mp h with h1 | h2
    · exact issueCall_notMem_pullSample env s pref b h1
    · exact ih _ b h2

theorem issueCall_notMem_repoll (env : Env) (s : EState) (b : Blk) :
    Event.issueCall b ∉ (repoll env s).2 :=
  issueCall_notMem_repollAux env s.cons.pref _ s b

theorem issueCall_notMem_voterRun (env : Env) (s : EState) (vdr rid : Nat)
    (resp : Option Nat) (b : Blk) :
    Event.issueCall b ∉ (voterRun env s vdr rid resp).2 := by
  unfold voterRun
  cases s.polls.find? (fun p => p.rid == rid) with
  | none => simp
  | some p =>
    dsimp only
    split
    · exact issueCall_notMem_repoll env _ b
    · simp

theorem issueCall_notMem_processOpts (env : Env) (outer : Nat) :
    ∀ (os : List Blk) (s : EState) (b : Blk),
      Event.issueCall b ∉ (processOpts env outer s os).2.2.2 := by
  intro os
  induction os with
  | nil => intro s b; simp [processOpts]
  | cons o os ih =>
    intro s b h
    simp only [processOpts] at h
    by_cases hv : o.verifyOk <;> simp [hv] at h <;> exact ih _ b h

theorem knot_no_issueCall : ∀ fuel : Nat,
    (∀ env s c b, Event.issueCall b ∉ (runCont fuel env s c).2) ∧
    (∀ env s deps c b, Event.issueCall b ∉ (register fuel env s deps c).2) ∧
    (∀ env s bid b, Event.issueCall b ∉ (fulfill fuel env s bid).2) ∧
    (∀ env s cs b, Event.issueCall b ∉ (runConts fuel env s cs).2) ∧
    (∀ env s blk b, Event.issueCall b ∉ (deliver fuel env s blk).2) ∧
    (∀ env s blk aL dL evs b, Event.issueCall b ∈ (deliverTail fuel env s blk aL dL evs).2 →
      Event.issueCall b ∈ evs) ∧
    (∀ env s bs b, Event.issueCall b ∉ (fulfillAdded fuel env s bs).2) := by
  intro fuel
  induction fuel with
  | zero =>
    refine ⟨?_, ?_, ?_, ?_, ?_, ?_, ?_⟩
    · intro env s c b; simp [runCont]
    · intro env s deps c b; simp [register]
    · intro env s bid b; simp [fulfill]
    · intro env s cs b; simp [runConts]
    · intro env s blk b; simp [deliver]
    · intro env s blk aL dL evs b h; simpa [deliverTail] using h
    · intro env s bs b; simp [fulfillAdded]
  | succ f ih =>
    obtain ⟨ih1, ih2, ih3, ih4, ih5, ih6, ih7⟩ := ih
    refine ⟨?_, ?_, ?_, ?_, ?_, ?_, ?_⟩
    · intro env s c b
      cases c with
      | issuerC blk => exact ih5 env s blk b
      | convincerC vdr rid => simp [runCont]
      | voterC vdr rid resp =>
        show Event.issueCall b ∉ (voterRun env s vdr rid resp).2
        exact issueCall_notMem_voterRun env s vdr rid resp b
    · intro env s deps c b
      simp only [register]
      split
      · exact ih1 env s c b
      · simp
    · intro env s bid b
      simp only [fulfill]
      exact ih4 env _ _ b
    · intro env s cs b
      cases cs with
      | nil => simp [runConts]
      | cons c cs =>
        intro h
        simp only [runConts] at h
        rcases List.mem_append.mp h with h1 | h2
        · exact ih1 env s c b h1
        · exact ih4 env _ cs b h2
    · intro env s blk b h
      unfold deliver at h
      by_cases hiss : consIssued s.cons blk
      · simp [hiss] at h
      · simp only [hiss] at h
        by_cases hv : blk.verifyOk
        · simp only [hv] at h
          rcases hbo : blk.oracle with _ | op
          · rw [hbo] at h
            dsimp only at h
            have := ih6 env _ blk _ _ _ b h
            simp at this
          · rcases op with _ | ⟨o1, o2⟩
            · rw [hbo] at h
              simp at h
            · rw [hbo] at h
              dsimp only at h
              have := ih6 env _ blk _ _ _ b h
              simp at this
              exact issueCall_notMem_processOpts env blk.bid _ _ b this
        · simp [hv] at h
    · intro env s blk aL dL evs b h
      simp only [deliverTail] at h
      rcases List.mem_append.mp h with h' | h10
      · rcases List.mem_append.mp h' with h'' | h8
        · rcases List.mem_append.mp h'' with h''' | h7
          · rcases List.mem_append.mp h''' with hev | h6
            · exact hev
            · exact absurd h6 (issueCall_notMem_pushSample env _ blk b)
          · exact absurd h7 (ih3 env _ blk.bid b)
        · exact absurd h8 (ih7 env _ aL b)
      · exact absurd h10 (issueCall_notMem_repoll env _ b)
    · intro env s bs b
      cases bs with
      | nil => simp [fulfillAdded]
      | cons x xs =>
        intro h
        simp only [fulfillAdded] at h
        rcases List.mem_append.mp h with h' | h4
        · rcases List.mem_append.mp h' with h1 | h3
          · exact issueCall_notMem_pushSample env s x b h1
          · exact ih3 env _ x.bid b h3
        · exact ih7 env _ xs b h4

theorem issue_trace_issueCall (fuel : Nat) (env : Env) (s : EState) (blk : Blk) (b : Blk)
    (h : Event.issueCall b ∈ (issue fuel env s blk).2) : b = blk := by
  unfold issue at h
  dsimp only at h
  rcases List.mem_cons.mp h with h1 | h2
  · injection h1
  · exact absurd h2 ((knot_no_issueCall fuel).2.1 env _ _ _ b)

/-- Claim C9: the missing-block sentinel reports `Status = Unknown`, and
its `Verify`, `Accept` and `Reject` all return errors
(`src/vms/components/missing/block.go`); its status is not Fetched, and
every block on which `issueWithAncestors` calls `issue` has a Fetched
status (the loop guard, line 534) — so the sentinel substituted for an
unfetchable ancestor is never issued to consensus. -/
theorem C9_missing_sentinel :
    (∀ i : Nat, (Blk.missing i).status = .unknown ∧ (Blk.missing i).verifyOk = false ∧
      (Blk.missing i).acceptOk = false ∧ (Blk.missing i).rejectOk = false ∧
      (Blk.missing i).status.fetched = false) ∧
    (∀ fuel env s bid blk b,
      Event.issueCall b ∈ (issueWithAncestors fuel env s bid blk).2.2 →
      b.status.fetched = true) := by
  constructor
  · intro i
    exact ⟨rfl, rfl, rfl, rfl, rfl⟩
  · intro fuel
    induction fuel with
    | zero =>
      intro env s bid blk b h
      simp [issueWithAncestors] at h
    | succ f ih =>
      intro env s bid blk b h
      unfold issueWithAncestors at h
      by_cases hc : (blk.status.fetched && !consIssued s.cons blk && !s.pending bid) = true
      · rw [if_pos hc] at h
        dsimp only at h
        rcases List.mem_append.mp h with h1 | h2
        · have hb : b = blk := issue_trace_issueCall f env s blk b h1
          subst hb
          simp only [Bool.and_eq_true] at hc
          exact hc.1.1
        · exact ih env _ _ _ b h2
      · rw [if_neg hc] at h
        split at h
        · simp at h
        · split at h <;> simp at h

/-- Witness for C9: a concrete walk whose first block is issued (it is
Fetched) and whose missing parent is replaced by the sentinel, ending
the walk. -/
theorem C9_witness :
    Event.issueCall blkB ∈ (issueWithAncestors 6 envTriv stateW 11 blkB).2.2 ∧
      blkB.status.fetched = true := by
  have hm : Event.issueCall blkB ∈ (issueWithAncestors 6 envTriv stateW 11 blkB).2.2 := by
    have he : (issueWithAncestors 6 envTriv stateW 11 blkB).2.2 = [Event.issueCall blkB] := rfl
    rw [he]
    simp
  exact ⟨hm, C9_missing_sentinel.2 6 envTriv stateW 11 blkB blkB hm⟩

/-- Claim C3 names a code bug: when an oracle option is immediately
rejected by `Consensus.Add`, `deliver` (lines 702-709) puts the
option's own ID into the decided cache and unpins the option's own ID
from `processing`, but the dropped-cache eviction on line 706 uses the
DELIVERED block's ID (`blkID`), not the option's — the slip the spec's
design notes flag. Concretely: delivering oracle block 10 whose option
11 is immediately rejected leaves 11 in the dropped cache. -/
theorem C3_option_eviction_uses_outer_id :
    (deliver 6 envC3 sC3 oracleO).1.droppedCache.containsKey 11 = true ∧
    (deliver 6 envC3 sC3 oracleO).1.decidedCache.containsKey 11 = true ∧
    (deliver 6 envC3 sC3 oracleO).1.processing 11 = none :=
  ⟨rfl, rfl, rfl⟩

/-! Lemmas about the `GetAncestors` collection loop. -/

theorem multiPutSize_append (cs : List Bytes) (b : Bytes) :
    multiPutSize (cs ++ [b]) = multiPutSize cs + (intLen + b.length) := by
  simp [multiPutSize]

theorem getAncestorsLoop_length (env : Env) (timeOK : Nat → Bool) :
    ∀ (fuel : Nat) (s : EState) (blk : Blk) (acc : List Bytes) (accLen : Nat),
      (getAncestorsLoop env timeOK fuel s blk acc accLen).2.length ≤ acc.length + fuel := by
  intro fuel
  induction fuel with
  | zero => intro s blk acc accLen; simp [getAncestorsLoop]
  | succ f ih =>
    intro s blk acc accLen
    unfold getAncestorsLoop
    split
    · simp
    · split
      · simp
      · dsimp only
        split
        · refine le_trans (ih _ _ _ _) ?_
          simp only [List.length_append, List.length_singleton]
          omega
        · simp

theorem getAncestorsLoop_size (env : Env) (timeOK : Nat → Bool) :
    ∀ (fuel : Nat) (s : EState) (blk : Blk) (acc : List Bytes) (accLen : Nat),
      accLen = multiPutSize acc →
      (getAncestorsLoop env timeOK fuel s blk acc accLen).2 = acc ∨
      multiPutSize (getAncestorsLoop env timeOK fuel s blk acc accLen).2 < maxContainersLen := by
  intro fuel
  induction fuel with
  | zero => intro s blk acc accLen _; left; simp [getAncestorsLoop]
  | succ f ih =>
    intro s blk acc accLen hlen
    unfold getAncestorsLoop
    split
    · left; rfl
    · split
      · left; rfl
      · rename_i b hb
        dsimp only
        split
        · rename_i hsz
          have hnext : multiPutSize (acc ++ [b.bytes]) = intLen + accLen + b.bytes.length := by
            rw [multiPutSize_append, hlen]
            omega
          rcases ih (engineGetBlock env s blk.parent).2 b (acc ++ [b.bytes])
              (intLen + accLen + b.bytes.length) hnext.symm with heq | hlt
          · right
            rw [heq, hnext]
            exact hsz
          · right
            exact hlt
        · left; rfl

/-- Claim C5 amended: every MultiPut assembled by `GetAncestors` holds
at most `MaxContainersPerMultiPut` containers; and whenever it holds at
least two containers its total size (each container counted with its
`IntLen` prefix) stays below `maxContainersLen`. The first container is
appended without a size check (line 192-194), so a single-container
response can exceed the budget. -/
theorem C5_amended_multiput_bounds (env : Env) (timeOK : Nat → Bool) (s : EState)
    (vdr rid bid vdr2 rid2 : Nat) (cs : List Bytes)
    (h : Event.sendMultiPut vdr2 rid2 cs ∈ (Transitive.GetAncestors env timeOK s vdr rid bid).2) :
    cs.length ≤ maxContainersPerMultiPut ∧
    (2 ≤ cs.length → multiPutSize cs < maxContainersLen) := by
  unfold Transitive.GetAncestors at h
  rcases hg : (engineGetBlock env s bid).1 with _ | blk
  · rw [hg] at h
    simp at h
  · rw [hg] at h
    simp only [List.mem_singleton, Event.sendMultiPut.injEq] at h
    obtain ⟨h1, h2, h3⟩ := h
    subst h3
    constructor
    · have hl := getAncestorsLoop_length env timeOK (maxContainersPerMultiPut - 1)
        (engineGetBlock env s bid).2 blk [blk.bytes] (blk.bytes.length + intLen)
      simp only [List.length_singleton] at hl
      have : 1 + (maxContainersPerMultiPut - 1) = maxContainersPerMultiPut := by
        simp [maxContainersPerMultiPut]
      omega
    · intro h2len
      have hsz := getAncestorsLoop_size env timeOK (maxContainersPerMultiPut - 1)
        (engineGetBlock env s bid).2 blk [blk.bytes] (blk.bytes.length + intLen)
        (by simp [multiPutSize]; omega)
      rcases hsz with heq | hlt
      · rw [heq] at h2len
        simp at h2len
      · exact hlt

/-- Witness for the amended C5: a one-container response for a block
whose parent is unknown. -/
theorem C5_amended_witness :
    Event.sendMultiPut 1 2 [[9]] ∈ (Transitive.GetAncestors envG (fun _ => true) freshState 1 2 1).2 ∧
      ([[9]] : List Bytes).length ≤ maxContainersPerMultiPut ∧
      (2 ≤ ([[9]] : List Bytes).length → multiPutSize [[9]] < maxContainersLen) := by
  have hm : Event.sendMultiPut 1 2 [[9]] ∈ (Transitive.GetAncestors envG (fun _ => true) freshState 1 2 1).2 := by
    have he : (Transitive.GetAncestors envG (fun _ => true) freshState 1 2 1).2
        = [Event.sendMultiPut 1 2 [[9]]] := rfl
    rw [he]
    simp
  exact ⟨hm, C5_amended_multiput_bounds envG (fun _ => true) freshState 1 2 1 1 2 [[9]] hm⟩

/-- Counterexample to claim C5 as stated: a chain whose tip block alone
is `maxContainersLen` bytes long yields a MultiPut whose total size,
counting the length prefix, exceeds `maxContainersLen` — the first
container is never size-checked. -/
theorem C5_counterexample :
    Event.sendMultiPut 1 2 [bigBlk.bytes]
        ∈ (Transitive.GetAncestors envBig (fun _ => true) freshState 1 2 3).2 ∧
      maxContainersLen < multiPutSize [bigBlk.bytes] := by
  constructor
  · have he : (Transitive.GetAncestors envBig (fun _ => true) freshState 1 2 3).2
        = [Event.sendMultiPut 1 2 [bigBlk.bytes]] := rfl
    rw [he]
    simp
  · show maxContainersLen < multiPutSize [bigBlk.bytes]
    have h1 : multiPutSize [bigBlk.bytes] = intLen + 1677721 := by
      show multiPutSize [(List.replicate 1677721 0 : Bytes)] = intLen + 1677721
      simp only [multiPutSize, List.map_cons, List.map_nil, List.sum_cons, List.sum_nil,
        List.length_replicate, Nat.add_zero]
    have h2 : maxContainersLen = 1677721 := by
      norm_num [maxContainersLen, defaultMaxMessageSize]
    rw [h1, h2, intLen]
    omega

/-! Poll-count lemmas. -/

theorem pollsAdd_len (ps : Polls) (rid : Nat) (bag : List Nat) :
    (pollsAdd ps rid bag).2.length ≤ ps.length + 1 := by
  unfold pollsAdd
  split <;> simp

theorem pullSample_polls_len (env : Env) (s : EState) (bid : Nat) :
    (pullSample env s bid).1.polls.length ≤ s.polls.length + 1 := by
  unfold pullSample
  cases env.sample with
  | none => simp
  | some vdrs =>
    dsimp only
    split
    · exact pollsAdd_len s.polls (s.requestID + 1) vdrs
    · simp

theorem repollAux_polls_len (env : Env) (pref : Nat) :
    ∀ (n : Nat) (s : EState),
      (repollAux env pref n s).1.polls.length ≤ s.polls.length + n := by
  intro n
  induction n with
  | zero => intro s; simp [repollAux]
  | succ n ih =>
    intro s
    simp only [repollAux]
    have h1 := pullSample_polls_len env s pref
    have h2 := ih (pullSample env s pref).1
    omega

/-- Claim C4 amended: `repoll` (lines 460-468) never raises the number
of outstanding polls above `max` of its current value and
`Params.ConcurrentRepolls` — it only adds pull queries while below the
budget. The at-rest bound of the original claim fails because
`pushSample` during `deliver` registers a poll regardless of the
budget (see the counterexample). -/
theorem C4_amended_repoll_bound (env : Env) (s : EState) :
    (repoll env s).1.polls.length ≤ max s.polls.length env.concurrentRepolls := by
  have h := repollAux_polls_len env s.cons.pref (env.concurrentRepolls - s.polls.length) s
  rcases le_or_lt s.polls.length env.concurrentRepolls with hle | hlt
  · refine le_trans ?_ (le_max_right s.polls.length env.concurrentRepolls)
    unfold repoll
    omega
  · refine le_trans ?_ (le_max_left s.polls.length env.concurrentRepolls)
    unfold repoll
    omega

/-- Counterexample to claim C4 as stated: a reachable at-rest state
(fresh engine, bootstrap handoff, then two `PushQuery` deliveries
without any poll concluding) holds 2 outstanding polls while
`ConcurrentRepolls = 1` — `deliver`'s `pushSample` (line 718) adds a
poll with no budget check. -/
theorem C4_counterexample :
    Reach envC4 c4s1 ∧ envC4.concurrentRepolls = 1 ∧ c4s1.polls.length = 2 :=
  ⟨Reach.step Reach.init (HStep.finishBoot 6 freshState rfl), rfl, rfl⟩

/-! Idempotence lemmas for `Put`. -/

theorem mapInsert_self (f : Nat → Option Blk) (k : Nat) (v : Blk) (h : f k = some v) :
    mapInsert f k v = f := by
  funext j
  unfold mapInsert
  split
  · rename_i hj
    subst hj
    exact h.symm
  · rfl

theorem LRU.evict_of_not_containsKey {α : Type} (c : LRU α) (k : Nat)
    (h : c.containsKey k = false) : c.evict k = c := by
  cases c with
  | mk size entries =>
    unfold LRU.containsKey at h
    dsimp only at h
    have hn : entries.find? (fun e => e.1 == k) = none := by
      cases hf : entries.find? (fun e => e.1 == k) with
      | none => rfl
      | some e => rw [hf] at h; simp at h
    have hall := List.find?_eq_none.mp hn
    simp only [LRU.evict, LRU.mk.injEq, true_and]
    refine List.filter_eq_self.mpr ?_
    intro e he
    have := hall e he
    simpa using this

theorem issueFrom_shortcircuit (fuel : Nat) (env : Env) (vdr : Nat) (s : EState)
    (blkID : Nat) (blk : Blk)
    (h : consIssued s.cons blk = true ∨ s.pending blkID = true) :
    issueFrom fuel env vdr s blkID blk = (consIssued s.cons blk, s, []) := by
  cases fuel with
  | zero => rfl
  | succ f =>
    have hc : (consIssued s.cons blk || s.pending blkID) = true := by
      rcases h with h | h <;> simp [h]
    simp [issueFrom, hc]

/-- Claim C8 amended: a repeated `Put` of the same message is a no-op
provided the first delivery left the block pending or issued (the claim
is then exactly as stated: the block is re-pinned to the value already
held — no state change — and `issueFrom` short-circuits, line 506,
producing no events). When the first delivery instead DROPPED the block
on verification failure, the second `Put` re-runs the whole issuance
(see the counterexample), though it drops the block again. -/
theorem C8_amended_put_idempotent (fuel : Nat) (env : Env) (s1 : EState)
    (vdr rid bid : Nat) (bytes : Bytes) (blk : Blk)
    (hb : s1.bootstrapped = true)
    (hp : env.parseBlock bytes = some blk)
    (hsc : s1.pending blk.bid = true ∨ consIssued s1.cons blk = true)
    (hpin : blk.status = .processing →
      s1.processing blk.bid = some blk ∧ s1.droppedCache.containsKey bid = false) :
    Transitive.Put fuel env s1 vdr rid bid bytes = (s1, []) := by
  have hstate :
      (if blk.status = .processing then
        { s1 with
          processing := mapInsert s1.processing blk.bid blk
          droppedCache := s1.droppedCache.evict bid }
      else s1) = s1 := by
    split
    · rename_i hst
      obtain ⟨h1, h2⟩ := hpin hst
      rw [mapInsert_self _ _ _ h1, LRU.evict_of_not_containsKey _ _ h2]
    · rfl
  unfold Transitive.Put
  rw [hp]
  rw [if_neg (show ¬((!s1.bootstrapped) = true) by rw [hb]; simp)]
  dsimp only
  rw [hstate]
  rw [issueFrom_shortcircuit fuel env vdr s1 blk.bid blk (by tauto)]

/-- Witness for the amended C8: re-delivering the bytes of a pending,
pinned block changes nothing. -/
theorem C8_amended_witness :
    sC8w.bootstrapped = true ∧ envC8.parseBlock [1] = some blkBad ∧
      sC8w.pending blkBad.bid = true ∧
      Transitive.Put 5 envC8 sC8w 1 1 2 [1] = (sC8w, []) :=
  ⟨rfl, rfl, rfl,
    C8_amended_put_idempotent 5 envC8 sC8w 1 1 2 [1] blkBad rfl rfl
      (Or.inl rfl) (fun _ => ⟨rfl, rfl⟩)⟩

/-- Counterexample to claim C8 as stated: when the first `Put` ends with
the block dropped on verification failure, the block is neither pending
nor issued afterwards, so the second identical `Put` does NOT
short-circuit — it performs a further issuance (an `issue` call with a
fresh Blocker registration), contradicting the claim's "performing no
further issuance, requests, or Blocker registrations". -/
theorem C8_counterexample :
    Event.issueCall blkBad ∈ (Transitive.Put 6 envC8 sC8a 1 1 2 [1]).2 := by
  have he : (Transitive.Put 6 envC8 sC8a 1 1 2 [1]).2
      = [Event.issueCall blkBad, Event.verifyCall blkBad] := rfl
  rw [he]
  simp

/-! Generic helpers for the causal-order invariant development. -/

theorem AddsOK_nil (env : Env) : AddsOK env [] := by
  intro blk ia h
  simp at h

theorem AddsOK_append {env : Env} {t1 t2 : List Event}
    (h1 : AddsOK env t1) (h2 : AddsOK env t2) : AddsOK env (t1 ++ t2) := by
  intro blk ia h
  rcases List.mem_append.mp h with h | h
  · exact h1 blk ia h
  · exact h2 blk ia h

theorem AddsOK_cons {env : Env} {e : Event} {t : List Event}
    (he : ∀ blk ia, e = Event.addCall blk ia → blk.parent ∈ ia ∨ DecidedId env blk.parent)
    (ht : AddsOK env t) : AddsOK env (e :: t) := by
  intro blk ia h
  rcases List.mem_cons.mp h with h | h
  · exact he blk ia h.symm
  · exact ht blk ia h

theorem IssuedMono_refl (s : EState) : IssuedMono s s := fun _ h => h

theorem IssuedMono_trans {a b c : EState} (h1 : IssuedMono a b) (h2 : IssuedMono b c) :
    IssuedMono a c := fun i hi => h2 i (h1 i hi)

theorem ContOK_mono {env : Env} {s s' : EState} (hm : IssuedMono s s') {c : Cont}
    (h : ContOK env s c) : ContOK env s' c := by
  cases c with
  | issuerC blk =>
    obtain ⟨h1, h2⟩ := h
    refine ⟨h1, ?_⟩
    rcases h2 with h2 | h2
    · exact Or.inl (hm _ h2)
    · exact Or.inr h2
  | convincerC vdr rid => trivial
  | voterC vdr rid resp => trivial

theorem consIssued_true_iff (c : Cons) (blk : Blk) :
    consIssued c blk = true ↔ blk.bid ∈ c.issued := by
  simp [consIssued]

theorem LRU.get_entries_subset {α : Type} (c : LRU α) (k : Nat) :
    ∀ e ∈ ((c.get k).2).entries, e ∈ c.entries := by
  intro e he
  unfold LRU.get at he
  cases hf : c.entries.find? (fun x => x.1 == k) with
  | none => rw [hf] at he; exact he
  | some x =>
    rw [hf] at he
    dsimp only at he
    rcases List.mem_cons.mp he with h | h
    · subst h; exact List.mem_of_find?_eq_some hf
    · exact List.mem_of_mem_filter h

theorem LRU.put_entries_cases {α : Type} (c : LRU α) (k : Nat) (v : α) :
    ∀ e ∈ (c.put k v).entries, e = (k, v) ∨ e ∈ c.entries := by
  intro e he
  unfold LRU.put at he
  have h2 := List.take_subset _ _ he
  rcases List.mem_cons.mp h2 with h | h
  · exact Or.inl h
  · exact Or.inr (List.mem_of_mem_filter h)

theorem LRU.evict_entries_subset {α : Type} (c : LRU α) (k : Nat) :
    ∀ e ∈ (c.evict k).entries, e ∈ c.entries :=
  fun _ he => List.mem_of_mem_filter he

theorem LRU.get_eq_some_mem {α : Type} (c : LRU α) (k : Nat) (v : α)
    (h : (c.get k).1 = some v) : (k, v) ∈ c.entries := by
  unfold LRU.get at h
  cases hf : c.entries.find? (fun x => x.1 == k) with
  | none => rw [hf] at h; simp at h
  | some e =>
    rw [hf] at h
    dsimp only at h
    injection h with h
    have hm := List.mem_of_find?_eq_some hf
    have hp := List.find?_some hf
    have hk : e.1 = k := by simpa using hp
    have : e = (k, v) := Prod.ext hk h
    rw [← this]
    exact hm

theorem LRU.get_isSome_mem {α : Type} (c : LRU α) (k : Nat)
    (h : (c.get k).1.isSome = true) : ∃ v, (k, v) ∈ c.entries := by
  cases hv : (c.get k).1 with
  | none => rw [hv] at h; simp at h
  | some v => exact ⟨v, LRU.get_eq_some_mem c k v hv⟩

theorem Inv_parts (env : Env) (s s' : EState)
    (hinv : Inv env s)
    (hb : ∀ p ∈ s'.blocked, p ∈ s.blocked)
    (hd : ∀ e ∈ s'.decidedCache.entries, e ∈ s.decidedCache.entries)
    (hp : ∀ i b, s'.processing i = some b → s.processing i = some b)
    (hdr : ∀ e ∈ s'.droppedCache.entries, e ∈ s.droppedCache.entries)
    (hc : IssuedMono s s') :
    Inv env s' := by
  obtain ⟨i1, i2, i3, i4⟩ := hinv
  refine ⟨?_, ?_, ?_, ?_⟩
  · intro p hq blk hblk
    exact i1 p (hb p hq) blk hblk
  · intro e he
    rcases i2 e (hd e he) with h | h
    · exact Or.inl (hc _ h)
    · exact Or.inr h
  · intro i b hib
    exact i3 i b (hp i b hib)
  · intro e he
    exact i4 e (hdr e he)

theorem engineGetBlock_state (env : Env) (s : EState) (bid : Nat) :
    (engineGetBlock env s bid).2.blocked = s.blocked ∧
    (engineGetBlock env s bid).2.decidedCache = s.decidedCache ∧
    (engineGetBlock env s bid).2.processing = s.processing ∧
    (∀ e ∈ (engineGetBlock env s bid).2.droppedCache.entries, e ∈ s.droppedCache.entries) ∧
    (engineGetBlock env s bid).2.cons = s.cons ∧
    (engineGetBlock env s bid).2.bootstrapped = s.bootstrapped := by
  unfold engineGetBlock
  cases s.processing bid with
  | some b => exact ⟨rfl, rfl, rfl, fun _ he => he, rfl, rfl⟩
  | none =>
    dsimp only
    cases h : (s.droppedCache.get bid).1 with
    | some b =>
      refine ⟨rfl, rfl, rfl, ?_, rfl, rfl⟩
      intro e he
      exact LRU.get_entries_subset s.droppedCache bid e he
    | none => exact ⟨rfl, rfl, rfl, fun _ he => he, rfl, rfl⟩

theorem engineGetBlock_inv (env : Env) (s : EState) (bid : Nat) (h : Inv env s) :
    Inv env (engineGetBlock env s bid).2 := by
  obtain ⟨h1, h2, h3, h4, h5, _⟩ := engineGetBlock_state env s bid
  apply Inv_parts env s _ h
  · rw [h1]; exact fun _ hp => hp
  · rw [h2]; exact fun _ he => he
  · intro i b hib; rw [h3] at hib; exact hib
  · exact h4
  · rw [IssuedMono]; rw [h5]; exact fun _ hi => hi

theorem sendRequest_stepOK (env : Env) (s : EState) (vdr bid : Nat) (h : Inv env s) :
    StepOK env s (sendRequest s vdr bid) ∧ (sendRequest s vdr bid).1.cons = s.cons := by
  unfold sendRequest
  split
  · exact ⟨⟨h, IssuedMono_refl s, rfl, AddsOK_nil env⟩, rfl⟩
  · refine ⟨⟨h, fun i hi => hi, rfl, ?_⟩, rfl⟩
    intro blk ia hm
    simp at hm

theorem pullSample_stepOK (env : Env) (s : EState) (bid : Nat) (h : Inv env s) :
    StepOK env s (pullSample env s bid) ∧ (pullSample env s bid).1.cons = s.cons := by
  unfold pullSample
  cases env.sample with
  | none => exact ⟨⟨h, fun i hi => hi, rfl, AddsOK_nil env⟩, rfl⟩
  | some vdrs =>
    dsimp only
    split
    · refine ⟨⟨h, fun i hi => hi, rfl, ?_⟩, rfl⟩
      intro blk ia hm
      simp at hm
    · exact ⟨⟨h, fun i hi => hi, rfl, AddsOK_nil env⟩, rfl⟩

theorem pushSample_stepOK (env : Env) (s : EState) (blk : Blk) (h : Inv env s) :
    StepOK env s (pushSample env s blk) ∧ (pushSample env s blk).1.cons = s.cons := by
  unfold pushSample
  cases env.sample with
  | none => exact ⟨⟨h, fun i hi => hi, rfl, AddsOK_nil env⟩, rfl⟩
  | some vdrs =>
    dsimp only
    split
    · refine ⟨⟨h, fun i hi => hi, rfl, ?_⟩, rfl⟩
      intro b ia hm
      simp at hm
    · exact ⟨⟨h, fun i hi => hi, rfl, AddsOK_nil env⟩, rfl⟩

theorem repollAux_stepOK (env : Env) (pref : Nat) :
    ∀ (n : Nat) (s : EState), Inv env s →
      StepOK env s (repollAux env pref n s) ∧ (repollAux env pref n s).1.cons = s.cons := by
  intro n
  induction n with
  | zero => intro s h; exact ⟨⟨h, IssuedMono_refl s, rfl, AddsOK_nil env⟩, rfl⟩
  | succ n ih =>
    intro s h
    simp only [repollAux]
    obtain ⟨⟨h1i, h1m, h1b, h1a⟩, h1c⟩ := pullSample_stepOK env s pref h
    obtain ⟨⟨h2i, h2m, h2b, h2a⟩, h2c⟩ := ih (pullSample env s pref).1 h1i
    exact ⟨⟨h2i, IssuedMono_trans h1m h2m, h2b.trans h1b, AddsOK_append h1a h2a⟩,
      h2c.trans h1c⟩

theorem repoll_stepOK (env : Env) (s : EState) (h : Inv env s) :
    StepOK env s (repoll env s) ∧ (repoll env s).1.cons = s.cons :=
  repollAux_stepOK env s.cons.pref _ s h

theorem abandonPack : ∀ fuel : Nat,
    (∀ (s : EState) (bid : Nat),
      (abandon fuel s bid).cons = s.cons ∧
      (abandon fuel s bid).bootstrapped = s.bootstrapped ∧
      (abandon fuel s bid).decidedCache = s.decidedCache ∧
      (abandon fuel s bid).processing = s.processing ∧
      (abandon fuel s bid).droppedCache = s.droppedCache ∧
      (∀ p ∈ (abandon fuel s bid).blocked, p ∈ s.blocked)) ∧
    (∀ (s : EState) (l : List (List Nat × Cont)),
      (abandonList fuel s l).cons = s.cons ∧
      (abandonList fuel s l).bootstrapped = s.bootstrapped ∧
      (abandonList fuel s l).decidedCache = s.decidedCache ∧
      (abandonList fuel s l).processing = s.processing ∧
      (abandonList fuel s l).droppedCache = s.droppedCache ∧
      (∀ p ∈ (abandonList fuel s l).blocked, p ∈ s.blocked)) := by
  intro fuel
  induction fuel with
  | zero =>
    refine ⟨fun s bid => ⟨rfl, rfl, rfl, rfl, rfl, fun p hp => hp⟩, fun s l => ?_⟩
    cases l with
    | nil => exact ⟨rfl, rfl, rfl, rfl, rfl, fun p hp => hp⟩
    | cons hd tl => exact ⟨rfl, rfl, rfl, rfl, rfl, fun p hp => hp⟩
  | succ f ih =>
    obtain ⟨ihA, ihL⟩ := ih
    constructor
    · intro s bid
      obtain ⟨a1, a2, a3, a4, a5, a6⟩ := ihL
        { s with blocked := s.blocked.filter (fun dc => !dc.1.contains bid) }
        (s.blocked.filter (fun dc => dc.1.contains bid))
      refine ⟨a1, a2, a3, a4, a5, ?_⟩
      intro p hp
      exact List.mem_of_mem_filter (a6 p hp)
    · intro s l
      cases l with
      | nil => exact ⟨rfl, rfl, rfl, rfl, rfl, fun p hp => hp⟩
      | cons hd tl =>
        obtain ⟨deps, c⟩ := hd
        cases c with
        | issuerC blk =>
          obtain ⟨a1, a2, a3, a4, a5, a6⟩ := ihA
            { s with pending := setRemove s.pending blk.bid } blk.bid
          obtain ⟨b1, b2, b3, b4, b5, b6⟩ := ihL
            (abandon f { s with pending := setRemove s.pending blk.bid } blk.bid) tl
          exact ⟨b1.trans a1, b2.trans a2, b3.trans a3, b4.trans a4, b5.trans a5,
            fun p hp => a6 p (b6 p hp)⟩
        | convincerC vdr rid => exact ihL s tl
        | voterC vdr rid resp => exact ihL s tl

theorem abandon_invOK (env : Env) (fuel : Nat) (s : EState) (bid : Nat) (h : Inv env s) :
    Inv env (abandon fuel s bid) ∧ (abandon fuel s bid).cons = s.cons ∧
      (abandon fuel s bid).bootstrapped = s.bootstrapped := by
  obtain ⟨a1, a2, a3, a4, a5, a6⟩ := (abandonPack fuel).1 s bid
  refine ⟨?_, a1, a2⟩
  apply Inv_parts env s _ h a6
  · rw [a3]; exact fun e he => he
  · intro i b hib; rw [a4] at hib; exact hib
  · rw [a5]; exact fun e he => he
  · rw [IssuedMono, a1]; exact fun i hi => hi

theorem abandonDropped_pack (fuel : Nat) :
    ∀ (bs : List Blk) (s : EState),
      (abandonDropped fuel s bs).cons = s.cons ∧
      (abandonDropped fuel s bs).bootstrapped = s.bootstrapped ∧
      (abandonDropped fuel s bs).decidedCache = s.decidedCache ∧
      (abandonDropped fuel s bs).processing = s.processing ∧
      (abandonDropped fuel s bs).droppedCache = s.droppedCache ∧
      (∀ p ∈ (abandonDropped fuel s bs).blocked, p ∈ s.blocked) := by
  induction fuel with
  | zero =>
    intro bs s
    cases bs with
    | nil => exact ⟨rfl, rfl, rfl, rfl, rfl, fun p hp => hp⟩
    | cons b bs => exact ⟨rfl, rfl, rfl, rfl, rfl, fun p hp => hp⟩
  | succ f ih =>
    intro bs s
    cases bs with
    | nil => exact ⟨rfl, rfl, rfl, rfl, rfl, fun p hp => hp⟩
    | cons b bs =>
      obtain ⟨a1, a2, a3, a4, a5, a6⟩ := (abandonPack f).1
        { s with pending := setRemove s.pending b.bid } b.bid
      obtain ⟨c1, c2, c3, c4, c5, c6⟩ := ih bs
        (abandon f { s with pending := setRemove s.pending b.bid } b.bid)
      exact ⟨c1.trans a1, c2.trans a2, c3.trans a3, c4.trans a4, c5.trans a5,
        fun p hp => a6 p (c6 p hp)⟩

theorem abandonDropped_invOK (env : Env) (fuel : Nat) (s : EState) (bs : List Blk)
    (h : Inv env s) :
    Inv env (abandonDropped fuel s bs) ∧ (abandonDropped fuel s bs).cons = s.cons ∧
      (abandonDropped fuel s bs).bootstrapped = s.bootstrapped := by
  obtain ⟨a1, a2, a3, a4, a5, a6⟩ := abandonDropped_pack fuel bs s
  refine ⟨?_, a1, a2⟩
  apply Inv_parts env s _ h a6
  · rw [a3]; exact fun e he => he
  · intro i b hib; rw [a4] at hib; exact hib
  · rw [a5]; exact fun e he => he
  · rw [IssuedMono, a1]; exact fun i hi => hi

theorem applyDecisions_pack (env : Env) :
    ∀ (ds : List Nat) (s : EState), Inv env s → (∀ d ∈ ds, d ∈ s.cons.issued) →
      Inv env (applyDecisions s ds) ∧ (applyDecisions s ds).cons = s.cons ∧
      (applyDecisions s ds).bootstrapped = s.bootstrapped := by
  intro ds
  induction ds with
  | nil => intro s h _; exact ⟨h, rfl, rfl⟩
  | cons d ds ih =>
    intro s h hds
    have hinv1 : Inv env
        { s with
          decidedCache := s.decidedCache.put d ()
          droppedCache := s.droppedCache.evict d
          processing := mapDelete s.processing d } := by
      obtain ⟨i1, i2, i3, i4⟩ := h
      refine ⟨i1, ?_, ?_, ?_⟩
      · intro e he
        rcases LRU.put_entries_cases s.decidedCache d () e he with he1 | he2
        · rw [he1]
          exact Or.inl (hds d (List.mem_cons_self d ds))
        · exact i2 e he2
      · intro i b hib
        dsimp only [mapDelete] at hib
        split at hib
        · exact absurd hib (by simp)
        · exact i3 i b hib
      · intro e he
        exact i4 e (LRU.evict_entries_subset _ _ e he)
    obtain ⟨a1, a2, a3⟩ := ih _ hinv1 (fun x hx => hds x (List.mem_cons_of_mem d hx))
    exact ⟨a1, a2, a3⟩

theorem voterRun_stepOK (env : Env) (s : EState) (vdr rid : Nat) (resp : Option Nat)
    (hwf : EnvWF env) (h : Inv env s) : StepOK env s (voterRun env s vdr rid resp) := by
  unfold voterRun
  cases hf : s.polls.find? (fun p => p.rid == rid) with
  | none => exact ⟨h, IssuedMono_refl s, rfl, AddsOK_nil env⟩
  | some p =>
    dsimp only
    split
    · have hinvMid : Inv env
          { s with
            polls := s.polls.filter (fun q => q.rid != rid)
            cons := (env.recordPoll s.cons (match resp with
              | some v => p.votes ++ [v]
              | none => p.votes)).1 } := by
        obtain ⟨i1, i2, i3, i4⟩ := h
        refine ⟨i1, ?_, i3, i4⟩
        intro e he
        rcases i2 e he with hh | hh
        · exact Or.inl (hwf.recordPollMono _ _ _ hh)
        · exact Or.inr hh
      obtain ⟨a1, a2, a3⟩ := applyDecisions_pack env _ _ hinvMid
        (fun d hd => hwf.recordPollMono _ _ _ (hwf.recordPollDecides _ _ _ hd))
      obtain ⟨⟨r1, r2, r3, r4⟩, r5⟩ := repoll_stepOK env _ a1
      refine ⟨r1, ?_, ?_, r4⟩
      · intro i hi
        apply r2
        rw [a2]
        exact hwf.recordPollMono _ _ _ hi
      · rw [r3, a3]
    · exact ⟨h, fun i hi => hi, rfl, AddsOK_nil env⟩

theorem processOpts_stepOK (env : Env) (outer : Nat) :
    ∀ (os : List Blk) (s : EState), Inv env s →
      (∀ o ∈ os, EnvBlk env o ∧ o.parent ∈ s.cons.issued) →
      Inv env (processOpts env outer s os).1 ∧
      IssuedMono s (processOpts env outer s os).1 ∧
      (processOpts env outer s os).1.bootstrapped = s.bootstrapped ∧
      AddsOK env (processOpts env outer s os).2.2.2 ∧
      (∀ o ∈ (processOpts env outer s os).2.1,
        o.bid ∈ (processOpts env outer s os).1.cons.issued) := by
  intro os
  induction os with
  | nil =>
    intro s h _
    refine ⟨h, IssuedMono_refl s, rfl, AddsOK_nil env, ?_⟩
    intro o ho
    simp [processOpts] at ho
  | cons o os ih =>
    intro s h hpre
    have hop := hpre o (List.mem_cons_self o os)
    have hos : ∀ x ∈ os, EnvBlk env x ∧ x.parent ∈ s.cons.issued :=
      fun x hx => hpre x (List.mem_cons_of_mem o hx)
    by_cases hv : o.verifyOk
    · simp only [processOpts]
      rw [if_neg (by simp [hv])]
      dsimp only [consAdd]
      have hmono1 : ∀ i, i ∈ s.cons.issued → i ∈ (o.bid :: s.cons.issued : List Nat) :=
        fun i hi => List.mem_cons_of_mem _ hi
      by_cases hr : env.rejFn o.bid
      · rw [if_pos hr]
        have hinv2 : Inv env
            { s with
              cons := ⟨o.bid :: s.cons.issued, env.prefFn (o.bid :: s.cons.issued) s.cons.pref⟩
              decidedCache := s.decidedCache.put o.bid ()
              droppedCache := s.droppedCache.evict outer
              processing := mapDelete s.processing o.bid } := by
          obtain ⟨i1, i2, i3, i4⟩ := h
          refine ⟨i1, ?_, ?_, ?_⟩
          · intro e he
            rcases LRU.put_entries_cases s.decidedCache o.bid () e he with he1 | he2
            · rw [he1]
              exact Or.inl (List.mem_cons_self _ _)
            · rcases i2 e he2 with hh | hh
              · exact Or.inl (hmono1 _ hh)
              · exact Or.inr hh
          · intro i b hib
            dsimp only [mapDelete] at hib
            split at hib
            · exact absurd hib (by simp)
            · exact i3 i b hib
          · intro e he
            exact i4 e (LRU.evict_entries_subset _ _ e he)
        obtain ⟨a1, a2, a3, a4, a5⟩ := ih _ hinv2
          (fun x hx => ⟨(hos x hx).1, hmono1 _ (hos x hx).2⟩)
        refine ⟨a1, ?_, a3, ?_, ?_⟩
        · exact fun i hi => a2 i (hmono1 i hi)
        · refine AddsOK_cons (by intro blk ia hh; simp at hh) ?_
          refine AddsOK_cons ?_ a4
          intro blk ia hh
          obtain ⟨hb1, hb2⟩ : blk = o ∧ ia = s.cons.issued := by
            constructor <;> injection hh <;> simp_all
          rw [hb1, hb2]
          exact Or.inl hop.2
        · intro x hx
          rcases List.mem_cons.mp hx with hx1 | hx2
          · rw [hx1]
            exact a2 o.bid (List.mem_cons_self _ _)
          · exact a5 x hx2
      · rw [if_neg hr]
        have hinv2 : Inv env
            { s with
              cons := ⟨o.bid :: s.cons.issued, env.prefFn (o.bid :: s.cons.issued) s.cons.pref⟩ } := by
          obtain ⟨i1, i2, i3, i4⟩ := h
          refine ⟨i1, ?_, i3, i4⟩
          intro e he
          rcases i2 e he with hh | hh
          · exact Or.inl (hmono1 _ hh)
          · exact Or.inr hh
        obtain ⟨a1, a2, a3, a4, a5⟩ := ih _ hinv2
          (fun x hx => ⟨(hos x hx).1, hmono1 _ (hos x hx).2⟩)
        refine ⟨a1, ?_, a3, ?_, ?_⟩
        · exact fun i hi => a2 i (hmono1 i hi)
        · refine AddsOK_cons (by intro blk ia hh; simp at hh) ?_
          refine AddsOK_cons ?_ a4
          intro blk ia hh
          obtain ⟨hb1, hb2⟩ : blk = o ∧ ia = s.cons.issued := by
            constructor <;> injection hh <;> simp_all
          rw [hb1, hb2]
          exact Or.inl hop.2
        · intro x hx
          rcases List.mem_cons.mp hx with hx1 | hx2
          · rw [hx1]
            exact a2 o.bid (List.mem_cons_self _ _)
          · exact a5 x hx2
    · simp only [processOpts]
      rw [if_pos (by simp [hv])]
      dsimp only
      obtain ⟨a1, a2, a3, a4, a5⟩ := ih s h hos
      refine ⟨a1, a2, a3, ?_, a5⟩
      exact AddsOK_cons (by intro blk ia hh; simp at hh) a4

theorem knot_stepOK (env : Env) (hwf : EnvWF env) : ∀ fuel : Nat,
    (∀ s c, Inv env s → ContOK env s c → StepOK env s (runCont fuel env s c)) ∧
    (∀ s deps c, Inv env s → RegOK env s deps c → StepOK env s (register fuel env s deps c)) ∧
    (∀ s bid, Inv env s → bid ∈ s.cons.issued → StepOK env s (fulfill fuel env s bid)) ∧
    (∀ s cs, Inv env s → (∀ c ∈ cs, ContOK env s c) → StepOK env s (runConts fuel env s cs)) ∧
    (∀ s blk, Inv env s → EnvBlk env blk →
      blk.parent ∈ s.cons.issued ∨ DecidedId env blk.parent →
      StepOK env s (deliver fuel env s blk)) ∧
    (∀ s blk aL dL evs, Inv env s → AddsOK env evs → blk.bid ∈ s.cons.issued →
      (∀ b ∈ aL, b.bid ∈ s.cons.issued) →
      StepOK env s (deliverTail fuel env s blk aL dL evs)) ∧
    (∀ s bs, Inv env s → (∀ b ∈ bs, b.bid ∈ s.cons.issued) →
      StepOK env s (fulfillAdded fuel env s bs)) := by
  intro fuel
  induction fuel with
  | zero =>
    refine ⟨?_, ?_, ?_, ?_, ?_, ?_, ?_⟩
    · intro s c h _; exact ⟨h, IssuedMono_refl s, rfl, AddsOK_nil env⟩
    · intro s deps c h _; exact ⟨h, IssuedMono_refl s, rfl, AddsOK_nil env⟩
    · intro s bid h _; exact ⟨h, IssuedMono_refl s, rfl, AddsOK_nil env⟩
    · intro s cs h _
      cases cs with
      | nil => exact ⟨h, IssuedMono_refl s, rfl, AddsOK_nil env⟩
      | cons c cs => exact ⟨h, IssuedMono_refl s, rfl, AddsOK_nil env⟩
    · intro s blk h _ _; exact ⟨h, IssuedMono_refl s, rfl, AddsOK_nil env⟩
    · intro s blk aL dL evs h hevs _ _; exact ⟨h, IssuedMono_refl s, rfl, hevs⟩
    · intro s bs h _
      cases bs with
      | nil => exact ⟨h, IssuedMono_refl s, rfl, AddsOK_nil env⟩
      | cons b bs => exact ⟨h, IssuedMono_refl s, rfl, AddsOK_nil env⟩
  | succ f ih =>
    obtain ⟨ih1, ih2, ih3, ih4, ih5, ih6, ih7⟩ := ih
    have hRunCont : ∀ s c, Inv env s → ContOK env s c →
        StepOK env s (runCont (f + 1) env s c) := by
      intro s c h hc
      cases c with
      | issuerC blk =>
        obtain ⟨hc1, hc2⟩ := hc
        exact ih5 s blk h hc1 hc2
      | convincerC vdr rid =>
        refine ⟨h, IssuedMono_refl s, rfl, ?_⟩
        exact AddsOK_cons (by intro b ia hh; simp at hh) (AddsOK_nil env)
      | voterC vdr rid resp =>
        exact voterRun_stepOK env s vdr rid resp hwf h
    refine ⟨hRunCont, ?_, ?_, ?_, ?_, ?_, ?_⟩
    · -- register
      intro s deps c h hr
      cases deps with
      | nil =>
        have hc : ContOK env s c := by
          cases c with
          | issuerC blk => exact ⟨hr.1, hr.2.1 rfl⟩
          | convincerC vdr rid => trivial
          | voterC vdr rid resp => trivial
        simp only [register, List.isEmpty_nil, if_true]
        exact ih1 s c h hc
      | cons d ds =>
        simp only [register, List.isEmpty_cons]
        rw [if_neg (by simp)]
        obtain ⟨i1, i2, i3, i4⟩ := h
        refine ⟨⟨?_, i2, i3, i4⟩, fun i hi => hi, rfl, AddsOK_nil env⟩
        intro p hp blk hblk
        rcases List.mem_append.mp hp with hp1 | hp2
        · exact i1 p hp1 blk hblk
        · have hpe : p = (d :: ds, c) := by simpa using hp2
          subst hpe
          subst hblk
          obtain ⟨hr1, _, hr3⟩ := hr
          exact ⟨hr3 (by simp), hr1⟩
    · -- fulfill
      intro s bid h hbid
      simp only [fulfill]
      have hinvMid : Inv env
          { s with blocked :=
              ((s.blocked.map (fun dc => (dc.1.filter (fun d => d != bid), dc.2))).filter
                (fun dc => !dc.1.isEmpty)) } := by
        obtain ⟨i1, i2, i3, i4⟩ := h
        refine ⟨?_, i2, i3, i4⟩
        intro p hp blk hblk
        have hp' := List.mem_filter.mp hp
        rcases List.mem_map.mp hp'.1 with ⟨q, hq, hq2⟩
        have hq2' : q.2 = Cont.issuerC blk := by
          rw [← hq2] at hblk
          simpa using hblk
        obtain ⟨hdeps, henv⟩ := i1 q hq blk hq2'
        have hp1 : p.1 = q.1.filter (fun d => d != bid) := by rw [← hq2]
        refine ⟨?_, henv⟩
        have hne := hp'.2
        rw [hp1, hdeps]
        rw [hp1, hdeps] at hne
        by_cases hpb : (blk.parent != bid) = true
        · simp [List.filter, hpb]
        · simp [List.filter, hpb] at hne
      have hready : ∀ c ∈ ((s.blocked.map
            (fun dc => (dc.1.filter (fun d => d != bid), dc.2))).filter
              (fun dc => dc.1.isEmpty)).map (fun dc => dc.2),
          ContOK env { s with blocked :=
              ((s.blocked.map (fun dc => (dc.1.filter (fun d => d != bid), dc.2))).filter
                (fun dc => !dc.1.isEmpty)) } c := by
        intro c hc
        rcases List.mem_map.mp hc with ⟨dc, hdc, hdc2⟩
        have hdc' := List.mem_filter.mp hdc
        rcases List.mem_map.mp hdc'.1 with ⟨q, hq, hq2⟩
        cases c with
        | issuerC blk =>
          have hq2' : q.2 = Cont.issuerC blk := by
            rw [← hq2] at hdc2
            dsimp only at hdc2
            rw [hdc2]
          obtain ⟨hdeps, henv⟩ := h.1 q hq blk hq2'
          refine ⟨henv, Or.inl ?_⟩
          have hempty := hdc'.2
          have hdc1 : dc.1 = q.1.filter (fun d => d != bid) := by rw [← hq2]
          rw [hdc1, hdeps] at hempty
          by_cases hpb : (blk.parent != bid) = true
          · simp [List.filter, hpb] at hempty
          · have : blk.parent = bid := by simpa using hpb
            rw [this]
            exact hbid
        | convincerC vdr rid => trivial
        | voterC vdr rid resp => trivial
      obtain ⟨a1, a2, a3, a4⟩ := ih4 _ _ hinvMid hready
      exact ⟨a1, a2, a3, a4⟩
    · -- runConts
      intro s cs h hcs
      cases cs with
      | nil => exact ⟨h, IssuedMono_refl s, rfl, AddsOK_nil env⟩
      | cons c cs =>
        simp only [runConts]
        obtain ⟨a1, a2, a3, a4⟩ := ih1 s c h (hcs c (List.mem_cons_self c cs))
        obtain ⟨b1, b2, b3, b4⟩ := ih4 _ cs a1
          (fun x hx => ContOK_mono a2 (hcs x (List.mem_cons_of_mem c hx)))
        exact ⟨b1, IssuedMono_trans a2 b2, b3.trans a3, AddsOK_append a4 b4⟩
    · -- deliver
      intro s blk h henv hpar
      by_cases hiss : consIssued s.cons blk = true
      · simp only [deliver, hiss, if_true]
        exact ⟨h, IssuedMono_refl s, rfl, AddsOK_nil env⟩
      · simp only [deliver]
        rw [if_neg (by simp [hiss])]
        by_cases hv : blk.verifyOk
        · rw [if_neg (by simp [hv])]
          dsimp only [consAdd]
          have hmono1 : ∀ i, i ∈ s.cons.issued → i ∈ (blk.bid :: s.cons.issued : List Nat) :=
            fun i hi => List.mem_cons_of_mem _ hi
          have haddev : AddsOK env [Event.verifyCall blk,
              Event.addCall blk s.cons.issued] := by
            refine AddsOK_cons (by intro b ia hh; simp at hh) ?_
            refine AddsOK_cons ?_ (AddsOK_nil env)
            intro b ia hh
            injection hh with hb1 hb2
            rw [← hb1, ← hb2]
            exact hpar
          by_cases hr : env.rejFn blk.bid
          · rw [if_pos hr]
            have hinv3 : Inv env
                { s with
                  pending := setRemove s.pending blk.bid
                  cons := ⟨blk.bid :: s.cons.issued,
                    env.prefFn (blk.bid :: s.cons.issued) s.cons.pref⟩
                  decidedCache := s.decidedCache.put blk.bid ()
                  droppedCache := s.droppedCache.evict blk.bid
                  processing := mapDelete s.processing blk.bid } := by
              obtain ⟨i1, i2, i3, i4⟩ := h
              refine ⟨i1, ?_, ?_, ?_⟩
              · intro e he
                rcases LRU.put_entries_cases s.decidedCache blk.bid () e he with he1 | he2
                · rw [he1]
                  exact Or.inl (List.mem_cons_self _ _)
                · rcases i2 e he2 with hh | hh
                  · exact Or.inl (hmono1 _ hh)
                  · exact Or.inr hh
              · intro i b hib
                dsimp only [mapDelete] at hib
                split at hib
                · exact absurd hib (by simp)
                · exact i3 i b hib
              · intro e he
                exact i4 e (LRU.evict_entries_subset _ _ e he)
            rcases ho : blk.oracle with _ | op
            · -- not an oracle block
              obtain ⟨a1, a2, a3, a4⟩ := ih6 _ blk [] []
                [Event.verifyCall blk, Event.addCall blk s.cons.issued] hinv3 haddev
                (List.mem_cons_self _ _) (by intro b hb; simp at hb)
              exact ⟨a1, fun i hi => a2 i (hmono1 i hi), a3, a4⟩
            · rcases op with _ | ⟨o1, o2⟩
              · exact ⟨hinv3, hmono1, rfl, haddev⟩
              · have hopts := processOpts_stepOK env blk.bid [o1, o2] _ hinv3 ?hpre
                case hpre =>
                  intro o hoe
                  have hp12 := hwf.optParent blk o1 o2 henv ho
                  rcases List.mem_cons.mp hoe with he1 | he2
                  · subst he1
                    exact ⟨EnvBlk.optL henv ho, by rw [hp12.1]; exact List.mem_cons_self _ _⟩
                  · have he2' : o = o2 := by simpa using he2
                    subst he2'
                    exact ⟨EnvBlk.optR henv ho, by rw [hp12.2]; exact List.mem_cons_self _ _⟩
                obtain ⟨p1, p2, p3, p4, p5⟩ := hopts
                obtain ⟨a1, a2, a3, a4⟩ := ih6 _ blk _ _ _ p1
                  (@AddsOK_cons env (Event.verifyCall blk) _
                    (by intro b ia hh; simp at hh)
                    (@AddsOK_cons env (Event.addCall blk s.cons.issued) _ (by
                      intro b ia hh
                      injection hh with hb1 hb2
                      rw [← hb1, ← hb2]
                      exact hpar) p4))
                  (p2 blk.bid (List.mem_cons_self _ _)) p5
                exact ⟨a1, fun i hi => a2 i (p2 i (hmono1 i hi)), a3.trans p3, a4⟩
          · rw [if_neg hr]
            have hinv3 : Inv env
                { s with
                  pending := setRemove s.pending blk.bid
                  cons := ⟨blk.bid :: s.cons.issued,
                    env.prefFn (blk.bid :: s.cons.issued) s.cons.pref⟩ } := by
              obtain ⟨i1, i2, i3, i4⟩ := h
              refine ⟨i1, ?_, i3, i4⟩
              intro e he
              rcases i2 e he with hh | hh
              · exact Or.inl (hmono1 _ hh)
              · exact Or.inr hh
            rcases ho : blk.oracle with _ | op
            · obtain ⟨a1, a2, a3, a4⟩ := ih6 _ blk [] []
                [Event.verifyCall blk, Event.addCall blk s.cons.issued] hinv3 haddev
                (List.mem_cons_self _ _) (by intro b hb; simp at hb)
              exact ⟨a1, fun i hi => a2 i (hmono1 i hi), a3, a4⟩
            · rcases op with _ | ⟨o1, o2⟩
              · exact ⟨hinv3, hmono1, rfl, haddev⟩
              · have hopts := processOpts_stepOK env blk.bid [o1, o2] _ hinv3 ?hpre2
                case hpre2 =>
                  intro o hoe
                  have hp12 := hwf.optParent blk o1 o2 henv ho
                  rcases List.mem_cons.mp hoe with he1 | he2
                  · subst he1
                    exact ⟨EnvBlk.optL henv ho, by rw [hp12.1]; exact List.mem_cons_self _ _⟩
                  · have he2' : o = o2 := by simpa using he2
                    subst he2'
                    exact ⟨EnvBlk.optR henv ho, by rw [hp12.2]; exact List.mem_cons_self _ _⟩
                obtain ⟨p1, p2, p3, p4, p5⟩ := hopts
                obtain ⟨a1, a2, a3, a4⟩ := ih6 _ blk _ _ _ p1
                  (@AddsOK_cons env (Event.verifyCall blk) _
                    (by intro b ia hh; simp at hh)
                    (@AddsOK_cons env (Event.addCall blk s.cons.issued) _ (by
                      intro b ia hh
                      injection hh with hb1 hb2
                      rw [← hb1, ← hb2]
                      exact hpar) p4))
                  (p2 blk.bid (List.mem_cons_self _ _)) p5
                exact ⟨a1, fun i hi => a2 i (p2 i (hmono1 i hi)), a3.trans p3, a4⟩
        · -- verification failure
          rw [if_pos (by simp [hv])]
          have hinv2 : Inv env
              { s with
                pending := setRemove s.pending blk.bid
                processing := mapDelete s.processing blk.bid
                droppedCache := s.droppedCache.put blk.bid blk } := by
            obtain ⟨i1, i2, i3, i4⟩ := h
            refine ⟨i1, i2, ?_, ?_⟩
            · intro i b hib
              dsimp only [mapDelete] at hib
              split at hib
              · exact absurd hib (by simp)
              · exact i3 i b hib
            · intro e he
              rcases LRU.put_entries_cases s.droppedCache blk.bid blk e he with he1 | he2
              · rw [he1]
                exact ⟨rfl, henv⟩
              · exact i4 e he2
          obtain ⟨a1, a2, a3⟩ := abandon_invOK env f _ blk.bid hinv2
          refine ⟨a1, ?_, a3, ?_⟩
          · rw [IssuedMono, a2]
            exact fun i hi => hi
          · exact AddsOK_cons (by intro b ia hh; simp at hh) (AddsOK_nil env)
    · -- deliverTail
      intro s blk aL dL evs h hevs hblk haL
      simp only [deliverTail]
      obtain ⟨⟨p1, p2, p3, p4⟩, p5⟩ := pushSample_stepOK env
        { s with vmPref := s.cons.pref } blk h
      obtain ⟨f1, f2, f3, f4⟩ := ih3 _ blk.bid p1 (by rw [p5]; exact hblk)
      obtain ⟨g1, g2, g3, g4⟩ := ih7 _ aL f1
        (fun b hb => f2 _ (by rw [p5]; exact haL b hb))
      obtain ⟨d1, d2, d3⟩ := abandonDropped_invOK env f _ dL g1
      obtain ⟨⟨r1, r2, r3, r4⟩, r5⟩ := repoll_stepOK env _ d1
      refine ⟨r1, ?_, ?_, ?_⟩
      · intro i hi
        apply r2
        rw [d2]
        exact g2 _ (f2 _ (by rw [p5]; exact hi))
      · rw [r3, d3, g3, f3, p3]
      · exact AddsOK_append (AddsOK_append (AddsOK_append (AddsOK_append hevs p4) f4) g4) r4
    · -- fulfillAdded
      intro s bs h hbs
      cases bs with
      | nil => exact ⟨h, IssuedMono_refl s, rfl, AddsOK_nil env⟩
      | cons b bs =>
        simp only [fulfillAdded]
        obtain ⟨⟨p1, p2, p3, p4⟩, p5⟩ := pushSample_stepOK env s b h
        have hb1 : b.bid ∈ ({ (pushSample env s b).1 with
            pending := setRemove (pushSample env s b).1.pending b.bid } : EState).cons.issued := by
          show b.bid ∈ (pushSample env s b).1.cons.issued
          rw [p5]
          exact hbs b (List.mem_cons_self b bs)
        obtain ⟨f1, f2, f3, f4⟩ := ih3
          { (pushSample env s b).1 with
            pending := setRemove (pushSample env s b).1.pending b.bid } b.bid p1 hb1
        have hmem : ∀ x ∈ bs, x.bid ∈ (fulfill f env
            { (pushSample env s b).1 with
              pending := setRemove (pushSample env s b).1.pending b.bid } b.bid).1.cons.issued := by
          intro x hx
          apply f2
          show x.bid ∈ (pushSample env s b).1.cons.issued
          rw [p5]
          exact hbs x (List.mem_cons_of_mem b hx)
        obtain ⟨g1, g2, g3, g4⟩ := ih7 _ bs f1 hmem
        refine ⟨g1, ?_, ?_, ?_⟩
        · intro i hi
          apply g2
          apply f2
          show i ∈ (pushSample env s b).1.cons.issued
          rw [p5]
          exact hi
        · rw [g3]
          exact f3.trans p3
        · exact AddsOK_append (AddsOK_append p4 f4) g4

theorem engineGetBlock_coherent (env : Env) (s : EState) (bid : Nat) (b : Blk)
    (hwf : EnvWF env) (h : Inv env s)
    (hg : (engineGetBlock env s bid).1 = some b) : b.bid = bid ∧ EnvBlk env b := by
  unfold engineGetBlock at hg
  cases hp : s.processing bid with
  | some p =>
    rw [hp] at hg
    dsimp only at hg
    injection hg with hg
    subst hg
    exact h.2.2.1 bid p hp
  | none =>
    rw [hp] at hg
    dsimp only at hg
    cases hd : (s.droppedCache.get bid).1 with
    | some d =>
      rw [hd] at hg
      dsimp only at hg
      injection hg with hg
      subst hg
      have hm := LRU.get_eq_some_mem s.droppedCache bid d hd
      have hcl := h.2.2.2 (bid, d) hm
      exact ⟨hcl.1.symm, hcl.2⟩
    | none =>
      rw [hd] at hg
      dsimp only at hg
      exact ⟨hwf.vmGetCoherent bid b hg, EnvBlk.vmGet hg⟩

theorem issue_stepOK (env : Env) (hwf : EnvWF env) (fuel : Nat) (s : EState) (blk : Blk)
    (h : Inv env s) (hb : EnvBlk env blk) :
    StepOK env s (issue fuel env s blk) := by
  have hreg := (knot_stepOK env hwf fuel).2.1
  obtain ⟨i1, i2, i3, i4⟩ := h
  have hs2 : Inv env { s with
      pending := setAdd s.pending blk.bid
      blkReqs := reqRemoveAny s.blkReqs blk.bid
      decidedCache := (s.decidedCache.get blk.parent).2 } := by
    refine ⟨i1, ?_, i3, i4⟩
    intro e he
    exact i2 e (LRU.get_entries_subset _ _ e he)
  simp only [issue]
  by_cases hc : (s.decidedCache.get blk.parent).1.isSome = true
  · rw [if_pos hc]
    obtain ⟨v, hv⟩ := LRU.get_isSome_mem s.decidedCache blk.parent hc
    have hready : blk.parent ∈ s.cons.issued ∨ DecidedId env blk.parent :=
      i2 (blk.parent, v) hv
    have hrok : RegOK env { s with
        pending := setAdd s.pending blk.bid
        blkReqs := reqRemoveAny s.blkReqs blk.bid
        decidedCache := (s.decidedCache.get blk.parent).2 } [] (.issuerC blk) :=
      ⟨hb, fun _ => hready, fun hne => absurd rfl hne⟩
    obtain ⟨a1, a2, a3, a4⟩ := hreg _ [] (.issuerC blk) hs2 hrok
    refine ⟨a1, a2, a3, ?_⟩
    refine AddsOK_cons ?_ a4
    intro b ia hh
    exact absurd hh (by simp)
  · rw [if_neg hc]
    have hginv := engineGetBlock_inv env { s with
        pending := setAdd s.pending blk.bid
        blkReqs := reqRemoveAny s.blkReqs blk.bid
        decidedCache := (s.decidedCache.get blk.parent).2 } blk.parent hs2
    have hgstate := engineGetBlock_state env { s with
        pending := setAdd s.pending blk.bid
        blkReqs := reqRemoveAny s.blkReqs blk.bid
        decidedCache := (s.decidedCache.get blk.parent).2 } blk.parent
    split
    next p heq =>
      have hcoh := engineGetBlock_coherent env _ blk.parent p hwf hs2 heq
      by_cases hci : consIssued (engineGetBlock env { s with
          pending := setAdd s.pending blk.bid
          blkReqs := reqRemoveAny s.blkReqs blk.bid
          decidedCache := (s.decidedCache.get blk.parent).2 } blk.parent).2.cons p = true
      · rw [if_pos hci]
        have hmem : blk.parent ∈ (engineGetBlock env { s with
            pending := setAdd s.pending blk.bid
            blkReqs := reqRemoveAny s.blkReqs blk.bid
            decidedCache := (s.decidedCache.get blk.parent).2 } blk.parent).2.cons.issued := by
          have h2 := (consIssued_true_iff _ p).mp hci
          rw [hcoh.1] at h2
          exact h2
        obtain ⟨a1, a2, a3, a4⟩ := hreg _ [] (.issuerC blk) hginv
          ⟨hb, fun _ => Or.inl hmem, fun hne => absurd rfl hne⟩
        refine ⟨a1, ?_, ?_, ?_⟩
        · intro i hi
          apply a2
          rw [hgstate.2.2.2.2.1]
          exact hi
        · exact a3.trans hgstate.2.2.2.2.2
        · refine AddsOK_cons ?_ a4
          intro b ia hh
          exact absurd hh (by simp)
      · rw [if_neg hci]
        obtain ⟨a1, a2, a3, a4⟩ := hreg _ [blk.parent] (.issuerC blk) hginv
          ⟨hb, fun habs => absurd habs (by simp), fun _ => rfl⟩
        refine ⟨a1, ?_, ?_, ?_⟩
        · intro i hi
          apply a2
          rw [hgstate.2.2.2.2.1]
          exact hi
        · exact a3.trans hgstate.2.2.2.2.2
        · refine AddsOK_cons ?_ a4
          intro b ia hh
          exact absurd hh (by simp)
    next heq =>
      obtain ⟨a1, a2, a3, a4⟩ := hreg _ [blk.parent] (.issuerC blk) hginv
        ⟨hb, fun habs => absurd habs (by simp), fun _ => rfl⟩
      refine ⟨a1, ?_, ?_, ?_⟩
      · intro i hi
        apply a2
        rw [hgstate.2.2.2.2.1]
        exact hi
      · exact a3.trans hgstate.2.2.2.2.2
      · refine AddsOK_cons ?_ a4
        intro b ia hh
        exact absurd hh (by simp)

theorem issueFrom_stepOK (env : Env) (hwf : EnvWF env) : ∀ (fuel vdr : Nat)
    (s : EState) (blkID : Nat) (blk : Blk), Inv env s → EnvBlk env blk →
    StepOK env s (issueFrom fuel env vdr s blkID blk).2 := by
  intro fuel
  induction fuel with
  | zero =>
    intro vdr s blkID blk h _
    exact ⟨h, IssuedMono_refl s, rfl, AddsOK_nil env⟩
  | succ f ih =>
    intro vdr s blkID blk h hb
    simp only [issueFrom]
    by_cases hg : (consIssued s.cons blk || s.pending blkID) = true
    · rw [if_pos hg]
      exact ⟨h, IssuedMono_refl s, rfl, AddsOK_nil env⟩
    · rw [if_neg hg]
      obtain ⟨a1, a2, a3, a4⟩ := issue_stepOK env hwf f s blk h hb
      have hs2 : Inv env { (issue f env s blk).1 with
          decidedCache := ((issue f env s blk).1.decidedCache.get blk.parent).2 } := by
        obtain ⟨i1, i2, i3, i4⟩ := a1
        exact ⟨i1, fun e he => i2 e (LRU.get_entries_subset _ _ e he), i3, i4⟩
      by_cases hc : ((issue f env s blk).1.decidedCache.get blk.parent).1.isSome = true
      · rw [if_pos hc]
        exact ⟨hs2, a2, a3, a4⟩
      · rw [if_neg hc]
        have hginv := engineGetBlock_inv env { (issue f env s blk).1 with
            decidedCache := ((issue f env s blk).1.decidedCache.get blk.parent).2 }
          blk.parent hs2
        have hgstate := engineGetBlock_state env { (issue f env s blk).1 with
            decidedCache := ((issue f env s blk).1.decidedCache.get blk.parent).2 }
          blk.parent
        split
        next p heq =>
          have hcoh := engineGetBlock_coherent env _ blk.parent p hwf hs2 heq
          by_cases hf : p.status.fetched = true
          · rw [if_pos hf]
            obtain ⟨b1, b2, b3, b4⟩ := ih vdr _ blk.parent p hginv hcoh.2
            refine ⟨b1, ?_, ?_, AddsOK_append a4 b4⟩
            · intro i hi
              apply b2
              rw [hgstate.2.2.2.2.1]
              exact a2 i hi
            · rw [b3]
              exact hgstate.2.2.2.2.2.trans a3
          · rw [if_neg hf]
            obtain ⟨⟨c1, c2, c3, c4⟩, c5⟩ := sendRequest_stepOK env _ vdr blk.parent hginv
            refine ⟨c1, ?_, ?_, AddsOK_append a4 c4⟩
            · intro i hi
              apply c2
              rw [hgstate.2.2.2.2.1]
              exact a2 i hi
            · rw [c3]
              exact hgstate.2.2.2.2.2.trans a3
        next heq =>
          obtain ⟨⟨c1, c2, c3, c4⟩, c5⟩ := sendRequest_stepOK env _ vdr blk.parent hginv
          refine ⟨c1, ?_, ?_, AddsOK_append a4 c4⟩
          · intro i hi
            apply c2
            rw [hgstate.2.2.2.2.1]
            exact a2 i hi
          · rw [c3]
            exact hgstate.2.2.2.2.2.trans a3

theorem issueFromByID_stepOK (env : Env) (hwf : EnvWF env) (fuel vdr : Nat)
    (s : EState) (blkID : Nat) (h : Inv env s) :
    StepOK env s (issueFromByID fuel env vdr s blkID).2 := by
  have hs1 : Inv env { s with decidedCache := (s.decidedCache.get blkID).2 } := by
    obtain ⟨i1, i2, i3, i4⟩ := h
    exact ⟨i1, fun e he => i2 e (LRU.get_entries_subset _ _ e he), i3, i4⟩
  simp only [issueFromByID]
  by_cases hc : (s.decidedCache.get blkID).1.isSome = true
  · rw [if_pos hc]
    exact ⟨hs1, fun i hi => hi, rfl, AddsOK_nil env⟩
  · rw [if_neg hc]
    have hginv := engineGetBlock_inv env
      { s with decidedCache := (s.decidedCache.get blkID).2 } blkID hs1
    have hgstate := engineGetBlock_state env
      { s with decidedCache := (s.decidedCache.get blkID).2 } blkID
    split
    next heq =>
      obtain ⟨⟨c1, c2, c3, c4⟩, c5⟩ := sendRequest_stepOK env _ vdr blkID hginv
      refine ⟨c1, ?_, ?_, c4⟩
      · intro i hi
        apply c2
        rw [hgstate.2.2.2.2.1]
        exact hi
      · exact c3.trans hgstate.2.2.2.2.2
    next blk heq =>
      have hcoh := engineGetBlock_coherent env _ blkID blk hwf hs1 heq
      by_cases hd : blk.status.decided = true
      · rw [if_pos hd]
        refine ⟨?_, ?_, ?_, AddsOK_nil env⟩
        · obtain ⟨g1, g2, g3, g4⟩ := hginv
          refine ⟨g1, ?_, g3, g4⟩
          intro e he
          rcases LRU.put_entries_cases _ blkID () e he with he1 | he2
          · rw [he1]
            exact Or.inr ⟨blk, hcoh.2, hcoh.1, hd⟩
          · exact g2 e he2
        · intro i hi
          rw [hgstate.2.2.2.2.1]
          exact hi
        · exact hgstate.2.2.2.2.2
      · rw [if_neg hd]
        obtain ⟨b1, b2, b3, b4⟩ := issueFrom_stepOK env hwf fuel vdr _ blkID blk hginv hcoh.2
        refine ⟨b1, ?_, ?_, b4⟩
        · intro i hi
          apply b2
          rw [hgstate.2.2.2.2.1]
          exact hi
        · exact b3.trans hgstate.2.2.2.2.2

theorem issueWithAncestors_stepOK (env : Env) (hwf : EnvWF env) : ∀ (fuel : Nat)
    (s : EState) (blkID : Nat) (blk : Blk), Inv env s →
    (EnvBlk env blk ∨ ∃ i, blk = Blk.missing i) →
    StepOK env s (issueWithAncestors fuel env s blkID blk).2 := by
  intro fuel
  induction fuel with
  | zero =>
    intro s blkID blk h _
    exact ⟨h, IssuedMono_refl s, rfl, AddsOK_nil env⟩
  | succ f ih =>
    intro s blkID blk h hb
    simp only [issueWithAncestors]
    by_cases hg : (blk.status.fetched && !consIssued s.cons blk && !s.pending blkID) = true
    · rw [if_pos hg]
      have hbe : EnvBlk env blk := by
        rcases hb with hb | ⟨i, hi⟩
        · exact hb
        · exfalso
          rw [hi] at hg
          simp [Blk.status, BStatus.fetched, BStatus.decided] at hg
      obtain ⟨a1, a2, a3, a4⟩ := issue_stepOK env hwf f s blk h hbe
      have hginv := engineGetBlock_inv env (issue f env s blk).1 blk.parent a1
      have hgstate := engineGetBlock_state env (issue f env s blk).1 blk.parent
      cases hm : (engineGetBlock env (issue f env s blk).1 blk.parent).1 with
      | some p =>
        have hcoh := engineGetBlock_coherent env _ blk.parent p hwf a1 hm
        obtain ⟨b1, b2, b3, b4⟩ := ih _ blk.parent p hginv (Or.inl hcoh.2)
        refine ⟨b1, ?_, ?_, AddsOK_append a4 b4⟩
        · intro i hi
          apply b2
          rw [hgstate.2.2.2.2.1]
          exact a2 i hi
        · rw [b3]
          exact hgstate.2.2.2.2.2.trans a3
      | none =>
        obtain ⟨b1, b2, b3, b4⟩ := ih _ blk.parent (Blk.missing blk.parent) hginv
          (Or.inr ⟨blk.parent, rfl⟩)
        refine ⟨b1, ?_, ?_, AddsOK_append a4 b4⟩
        · intro i hi
          apply b2
          rw [hgstate.2.2.2.2.1]
          exact a2 i hi
        · rw [b3]
          exact hgstate.2.2.2.2.2.trans a3
    · rw [if_neg hg]
      by_cases h1 : consIssued s.cons blk = true
      · rw [if_pos h1]
        exact ⟨h, fun i hi => hi, rfl, AddsOK_nil env⟩
      · rw [if_neg h1]
        by_cases h2 : reqContains s.blkReqs blkID = true
        · rw [if_pos h2]
          exact ⟨h, fun i hi => hi, rfl, AddsOK_nil env⟩
        · rw [if_neg h2]
          obtain ⟨d1, d2, d3⟩ := abandon_invOK env f s blkID h
          refine ⟨d1, ?_, d3, AddsOK_nil env⟩
          intro i hi
          rw [d2]
          exact hi

theorem Get_invB (env : Env) (s : EState) (vdr rid bid : Nat) (h : InvB env s) :
    InvB env (Transitive.Get env s vdr rid bid).1 ∧
    AddsOK env (Transitive.Get env s vdr rid bid).2 := by
  obtain ⟨h1, h2⟩ := h
  have hginv := engineGetBlock_inv env s bid h1
  have hgstate := engineGetBlock_state env s bid
  unfold Transitive.Get
  split
  next heq =>
    refine ⟨⟨hginv, ?_⟩, ?_⟩
    · intro hbf
      rw [hgstate.2.2.2.2.2] at hbf
      obtain ⟨e1, e2⟩ := h2 hbf
      rw [hgstate.2.1, hgstate.1]
      exact ⟨e1, e2⟩
    · intro b ia hm
      simp at hm
  next blk heq =>
    refine ⟨⟨hginv, ?_⟩, ?_⟩
    · intro hbf
      rw [hgstate.2.2.2.2.2] at hbf
      obtain ⟨e1, e2⟩ := h2 hbf
      rw [hgstate.2.1, hgstate.1]
      exact ⟨e1, e2⟩
    · intro b ia hm
      simp at hm

theorem Gossip_invB (env : Env) (s : EState) (h : InvB env s) :
    InvB env (Transitive.Gossip env s).1 ∧
    AddsOK env (Transitive.Gossip env s).2 := by
  obtain ⟨h1, h2⟩ := h
  have hginv := engineGetBlock_inv env s env.lastAccepted h1
  have hgstate := engineGetBlock_state env s env.lastAccepted
  unfold Transitive.Gossip
  split
  next heq =>
    refine ⟨⟨hginv, ?_⟩, ?_⟩
    · intro hbf
      rw [hgstate.2.2.2.2.2] at hbf
      obtain ⟨e1, e2⟩ := h2 hbf
      rw [hgstate.2.1, hgstate.1]
      exact ⟨e1, e2⟩
    · intro b ia hm
      simp at hm
  next blk heq =>
    refine ⟨⟨hginv, ?_⟩, ?_⟩
    · intro hbf
      rw [hgstate.2.2.2.2.2] at hbf
      obtain ⟨e1, e2⟩ := h2 hbf
      rw [hgstate.2.1, hgstate.1]
      exact ⟨e1, e2⟩
    · intro b ia hm
      simp at hm

theorem getAncestorsLoop_pack (env : Env) (timeOK : Nat → Bool) :
    ∀ (n : Nat) (s : EState) (blk : Blk) (acc : List Bytes) (accLen : Nat),
      (getAncestorsLoop env timeOK n s blk acc accLen).1.blocked = s.blocked ∧
      (getAncestorsLoop env timeOK n s blk acc accLen).1.decidedCache = s.decidedCache ∧
      (getAncestorsLoop env timeOK n s blk acc accLen).1.processing = s.processing ∧
      (∀ e ∈ (getAncestorsLoop env timeOK n s blk acc accLen).1.droppedCache.entries,
        e ∈ s.droppedCache.entries) ∧
      (getAncestorsLoop env timeOK n s blk acc accLen).1.cons = s.cons ∧
      (getAncestorsLoop env timeOK n s blk acc accLen).1.bootstrapped = s.bootstrapped := by
  intro n
  induction n with
  | zero =>
    intro s blk acc accLen
    exact ⟨rfl, rfl, rfl, fun e he => he, rfl, rfl⟩
  | succ f ih =>
    intro s blk acc accLen
    have hgstate := engineGetBlock_state env s blk.parent
    simp only [getAncestorsLoop]
    by_cases ht : (!timeOK (f + 1)) = true
    · rw [if_pos ht]
      exact ⟨rfl, rfl, rfl, fun e he => he, rfl, rfl⟩
    · rw [if_neg ht]
      split
      next heq =>
        exact ⟨hgstate.1, hgstate.2.1, hgstate.2.2.1, hgstate.2.2.2.1,
          hgstate.2.2.2.2.1, hgstate.2.2.2.2.2⟩
      next b heq =>
        by_cases hl : intLen + accLen + b.bytes.length < maxContainersLen
        · rw [if_pos hl]
          obtain ⟨c1, c2, c3, c4, c5, c6⟩ := ih (engineGetBlock env s blk.parent).2 b
            (acc ++ [b.bytes]) (intLen + accLen + b.bytes.length)
          exact ⟨c1.trans hgstate.1, c2.trans hgstate.2.1, c3.trans hgstate.2.2.1,
            fun e he => hgstate.2.2.2.1 e (c4 e he),
            c5.trans hgstate.2.2.2.2.1, c6.trans hgstate.2.2.2.2.2⟩
        · rw [if_neg hl]
          exact ⟨hgstate.1, hgstate.2.1, hgstate.2.2.1, hgstate.2.2.2.1,
            hgstate.2.2.2.2.1, hgstate.2.2.2.2.2⟩

theorem GetAncestors_invB (env : Env) (timeOK : Nat → Bool) (s : EState)
    (vdr rid bid : Nat) (h : InvB env s) :
    InvB env (Transitive.GetAncestors env timeOK s vdr rid bid).1 ∧
    AddsOK env (Transitive.GetAncestors env timeOK s vdr rid bid).2 := by
  obtain ⟨h1, h2⟩ := h
  have hginv := engineGetBlock_inv env s bid h1
  have hgstate := engineGetBlock_state env s bid
  unfold Transitive.GetAncestors
  split
  next heq =>
    refine ⟨⟨hginv, ?_⟩, ?_⟩
    · intro hbf
      rw [hgstate.2.2.2.2.2] at hbf
      obtain ⟨e1, e2⟩ := h2 hbf
      rw [hgstate.2.1, hgstate.1]
      exact ⟨e1, e2⟩
    · intro b ia hm
      simp at hm
  next blk heq =>
    obtain ⟨c1, c2, c3, c4, c5, c6⟩ := getAncestorsLoop_pack env timeOK
      (maxContainersPerMultiPut - 1) (engineGetBlock env s bid).2 blk [blk.bytes]
      (blk.bytes.length + intLen)
    refine ⟨⟨?_, ?_⟩, ?_⟩
    · apply Inv_parts env (engineGetBlock env s bid).2 _ hginv
      · rw [c1]; exact fun p hp => hp
      · rw [c2]; exact fun e he => he
      · intro i b hib; rw [c3] at hib; exact hib
      · exact c4
      · rw [IssuedMono, c5]; exact fun i hi => hi
    · intro hbf
      rw [c6, hgstate.2.2.2.2.2] at hbf
      obtain ⟨e1, e2⟩ := h2 hbf
      rw [c2, hgstate.2.1, c1, hgstate.1]
      exact ⟨e1, e2⟩
    · intro b ia hm
      simp at hm

theorem InvB_of_true (env : Env) (r : EState) (h : Inv env r) (hb : r.bootstrapped = true) :
    InvB env r :=
  ⟨h, fun hf => absurd (hb.symm.trans hf) (by simp)⟩

theorem GetFailed_invB (env : Env) (fuel : Nat) (s : EState) (vdr rid : Nat)
    (h : InvB env s) :
    InvB env (Transitive.GetFailed fuel env s vdr rid).1 ∧
    AddsOK env (Transitive.GetFailed fuel env s vdr rid).2 := by
  obtain ⟨h1, h2⟩ := h
  simp only [Transitive.GetFailed]
  by_cases hbs : (!s.bootstrapped) = true
  · rw [if_pos hbs]
    exact ⟨⟨h1, h2⟩, AddsOK_nil env⟩
  · rw [if_neg hbs]
    have hb : s.bootstrapped = true := by
      cases hsb : s.bootstrapped
      · rw [hsb] at hbs; simp at hbs
      · rfl
    split
    next heq => exact ⟨⟨h1, h2⟩, AddsOK_nil env⟩
    next bid reqs1 heq =>
      obtain ⟨d1, d2, d3⟩ := abandon_invOK env fuel { s with blkReqs := reqs1 } bid h1
      refine ⟨InvB_of_true env _ d1 ?_, AddsOK_nil env⟩
      rw [d3]
      exact hb

theorem Put_invB (env : Env) (hwf : EnvWF env) (fuel : Nat) (s : EState)
    (vdr rid bid : Nat) (bytes : Bytes) (h : InvB env s) :
    InvB env (Transitive.Put fuel env s vdr rid bid bytes).1 ∧
    AddsOK env (Transitive.Put fuel env s vdr rid bid bytes).2 := by
  obtain ⟨h1, h2⟩ := h
  simp only [Transitive.Put]
  by_cases hbs : (!s.bootstrapped) = true
  · rw [if_pos hbs]
    exact ⟨⟨h1, h2⟩, AddsOK_nil env⟩
  · rw [if_neg hbs]
    have hb : s.bootstrapped = true := by
      cases hsb : s.bootstrapped
      · rw [hsb] at hbs; simp at hbs
      · rfl
    split
    next heq => exact GetFailed_invB env fuel s vdr rid ⟨h1, h2⟩
    next blk heq =>
      have hs1 : Inv env (if blk.status = .processing then
          { s with
            processing := mapInsert s.processing blk.bid blk
            droppedCache := s.droppedCache.evict bid }
          else s) := by
        split
        · obtain ⟨i1, i2, i3, i4⟩ := h1
          refine ⟨i1, i2, ?_, ?_⟩
          · intro i b hib
            dsimp only [mapInsert] at hib
            split at hib
            next hieq =>
              injection hib with hib
              subst hib
              exact ⟨hieq.symm, EnvBlk.parse heq⟩
            next => exact i3 i b hib
          · intro e he
            exact i4 e (LRU.evict_entries_subset _ _ e he)
        · exact h1
      obtain ⟨a1, a2, a3, a4⟩ := issueFrom_stepOK env hwf fuel vdr _ blk.bid blk hs1
        (EnvBlk.parse heq)
      refine ⟨InvB_of_true env _ a1 ?_, a4⟩
      rw [a3]
      split
      · exact hb
      · exact hb

theorem PullQuery_invB (env : Env) (hwf : EnvWF env) (fuel : Nat) (s : EState)
    (vdr rid bid : Nat) (h : InvB env s) :
    InvB env (Transitive.PullQuery fuel env s vdr rid bid).1 ∧
    AddsOK env (Transitive.PullQuery fuel env s vdr rid bid).2 := by
  obtain ⟨h1, h2⟩ := h
  simp only [Transitive.PullQuery]
  by_cases hbs : (!s.bootstrapped) = true
  · rw [if_pos hbs]
    exact ⟨⟨h1, h2⟩, AddsOK_nil env⟩
  · rw [if_neg hbs]
    have hb : s.bootstrapped = true := by
      cases hsb : s.bootstrapped
      · rw [hsb] at hbs; simp at hbs
      · rfl
    obtain ⟨a1, a2, a3, a4⟩ := issueFromByID_stepOK env hwf fuel vdr s bid h1
    obtain ⟨b1, b2, b3, b4⟩ := (knot_stepOK env hwf fuel).2.1
      (issueFromByID fuel env vdr s bid).2.1
      (if (issueFromByID fuel env vdr s bid).1 = true then [] else [bid])
      (.convincerC vdr rid) a1 trivial
    refine ⟨InvB_of_true env _ b1 ?_, AddsOK_append a4 b4⟩
    rw [b3, a3]
    exact hb

theorem PushQuery_invB (env : Env) (hwf : EnvWF env) (fuel : Nat) (s : EState)
    (vdr rid bid : Nat) (bytes : Bytes) (h : InvB env s) :
    InvB env (Transitive.PushQuery fuel env s vdr rid bid bytes).1 ∧
    AddsOK env (Transitive.PushQuery fuel env s vdr rid bid bytes).2 := by
  obtain ⟨h1, h2⟩ := h
  simp only [Transitive.PushQuery]
  by_cases hbs : (!s.bootstrapped) = true
  · rw [if_pos hbs]
    exact ⟨⟨h1, h2⟩, AddsOK_nil env⟩
  · rw [if_neg hbs]
    have hb : s.bootstrapped = true := by
      cases hsb : s.bootstrapped
      · rw [hsb] at hbs; simp at hbs
      · rfl
    split
    next heq => exact ⟨⟨h1, h2⟩, AddsOK_nil env⟩
    next blk heq =>
      by_cases hid : blk.bid ≠ bid
      · rw [if_pos hid]
        exact ⟨⟨h1, h2⟩, AddsOK_nil env⟩
      · rw [if_neg hid]
        have hs1 : Inv env (if blk.status = .processing then
            { s with
              processing := mapInsert s.processing bid blk
              droppedCache := s.droppedCache.evict bid }
            else s) := by
          split
          · obtain ⟨i1, i2, i3, i4⟩ := h1
            refine ⟨i1, i2, ?_, ?_⟩
            · intro i b hib
              dsimp only [mapInsert] at hib
              split at hib
              next hieq =>
                injection hib with hib
                subst hib
                refine ⟨?_, EnvBlk.parse heq⟩
                rw [hieq]
                exact Decidable.of_not_not hid
              next => exact i3 i b hib
            · intro e he
              exact i4 e (LRU.evict_entries_subset _ _ e he)
          · exact h1
        obtain ⟨a1, a2, a3, a4⟩ := issueFrom_stepOK env hwf fuel vdr _ blk.bid blk hs1
          (EnvBlk.parse heq)
        have hmid : InvB env (issueFrom fuel env vdr (if blk.status = .processing then
            { s with
              processing := mapInsert s.processing bid blk
              droppedCache := s.droppedCache.evict bid }
            else s) blk.bid blk).2.1 := by
          refine InvB_of_true env _ a1 ?_
          rw [a3]
          split
          · exact hb
          · exact hb
        obtain ⟨p1, p2⟩ := PullQuery_invB env hwf fuel _ vdr rid bid hmid
        exact ⟨p1, AddsOK_append a4 p2⟩

theorem QueryFailed_invB (env : Env) (hwf : EnvWF env) (fuel : Nat) (s : EState)
    (vdr rid : Nat) (h : InvB env s) :
    InvB env (Transitive.QueryFailed fuel env s vdr rid).1 ∧
    AddsOK env (Transitive.QueryFailed fuel env s vdr rid).2 := by
  obtain ⟨h1, h2⟩ := h
  simp only [Transitive.QueryFailed]
  by_cases hbs : (!s.bootstrapped) = true
  · rw [if_pos hbs]
    exact ⟨⟨h1, h2⟩, AddsOK_nil env⟩
  · rw [if_neg hbs]
    have hb : s.bootstrapped = true := by
      cases hsb : s.bootstrapped
      · rw [hsb] at hbs; simp at hbs
      · rfl
    obtain ⟨b1, b2, b3, b4⟩ := (knot_stepOK env hwf fuel).2.1 s [] (.voterC vdr rid none)
      h1 trivial
    refine ⟨InvB_of_true env _ b1 ?_, b4⟩
    rw [b3]
    exact hb

theorem Chits_invB (env : Env) (hwf : EnvWF env) (fuel : Nat) (s : EState)
    (vdr rid : Nat) (votes : List Nat) (h : InvB env s) :
    InvB env (Transitive.Chits fuel env s vdr rid votes).1 ∧
    AddsOK env (Transitive.Chits fuel env s vdr rid votes).2 := by
  obtain ⟨h1, h2⟩ := h
  simp only [Transitive.Chits]
  by_cases hbs : (!s.bootstrapped) = true
  · rw [if_pos hbs]
    exact ⟨⟨h1, h2⟩, AddsOK_nil env⟩
  · rw [if_neg hbs]
    have hb : s.bootstrapped = true := by
      cases hsb : s.bootstrapped
      · rw [hsb] at hbs; simp at hbs
      · rfl
    by_cases hv : votes.length ≠ 1
    · rw [if_pos hv]
      exact QueryFailed_invB env hwf fuel s vdr rid ⟨h1, h2⟩
    · rw [if_neg hv]
      obtain ⟨a1, a2, a3, a4⟩ := issueFromByID_stepOK env hwf fuel vdr s (votes.headD 0) h1
      obtain ⟨b1, b2, b3, b4⟩ := (knot_stepOK env hwf fuel).2.1
        (issueFromByID fuel env vdr s (votes.headD 0)).2.1
        (if (issueFromByID fuel env vdr s (votes.headD 0)).1 = true then []
          else [votes.headD 0])
        (.voterC vdr rid (some (votes.headD 0))) a1 trivial
      refine ⟨InvB_of_true env _ b1 ?_, AddsOK_append a4 b4⟩
      rw [b3, a3]
      exact hb

theorem Notify_invB (env : Env) (hwf : EnvWF env) (fuel : Nat) (s : EState)
    (msg : NotifyMsg) (h : InvB env s) :
    InvB env (Transitive.Notify fuel env s msg).1 ∧
    AddsOK env (Transitive.Notify fuel env s msg).2 := by
  obtain ⟨h1, h2⟩ := h
  cases msg with
  | other =>
    simp only [Transitive.Notify]
    by_cases hbs : (!s.bootstrapped) = true
    · rw [if_pos hbs]
      exact ⟨⟨h1, h2⟩, AddsOK_nil env⟩
    · rw [if_neg hbs]
      exact ⟨⟨h1, h2⟩, AddsOK_nil env⟩
  | pendingTxs =>
    simp only [Transitive.Notify]
    by_cases hbs : (!s.bootstrapped) = true
    · rw [if_pos hbs]
      exact ⟨⟨h1, h2⟩, AddsOK_nil env⟩
    · rw [if_neg hbs]
      have hb : s.bootstrapped = true := by
        cases hsb : s.bootstrapped
        · rw [hsb] at hbs; simp at hbs
        · rfl
      split
      next heq => exact ⟨⟨h1, h2⟩, AddsOK_nil env⟩
      next blk heq =>
        by_cases hst : blk.status ≠ BStatus.processing
        · rw [if_pos hst]
          exact ⟨⟨h1, h2⟩, AddsOK_nil env⟩
        · rw [if_neg hst]
          by_cases hpi : (s.pending blk.bid || consIssued s.cons blk) = true
          · rw [if_pos hpi]
            exact ⟨⟨h1, h2⟩, AddsOK_nil env⟩
          · rw [if_neg hpi]
            have hs1 : Inv env { s with
                processing := mapInsert s.processing blk.bid blk
                droppedCache := s.droppedCache.evict blk.bid } := by
              obtain ⟨i1, i2, i3, i4⟩ := h1
              refine ⟨i1, i2, ?_, ?_⟩
              · intro i b hib
                dsimp only [mapInsert] at hib
                split at hib
                next hieq =>
                  injection hib with hib
                  subst hib
                  exact ⟨hieq.symm, EnvBlk.build heq⟩
                next => exact i3 i b hib
              · intro e he
                exact i4 e (LRU.evict_entries_subset _ _ e he)
            obtain ⟨a1, a2, a3, a4⟩ := issueWithAncestors_stepOK env hwf fuel _ blk.bid blk
              hs1 (Or.inl (EnvBlk.build heq))
            refine ⟨InvB_of_true env _ a1 ?_, a4⟩
            rw [a3]
            exact hb

theorem finishBoot_invB (env : Env) (hwf : EnvWF env) (fuel : Nat) (s : EState)
    (hpre : s.bootstrapped = false) (h : InvB env s) :
    InvB env (Transitive.finishBootstrapping fuel env s).1 ∧
    AddsOK env (Transitive.finishBootstrapping fuel env s).2 := by
  obtain ⟨⟨i1, i2, i3, i4⟩, h2⟩ := h
  obtain ⟨e1, e2⟩ := h2 hpre
  have hs1 : Inv env { s with cons := ⟨[env.lastAccepted], env.lastAccepted⟩ } := by
    refine ⟨i1, ?_, i3, i4⟩
    intro e he
    have he2 : e ∈ s.decidedCache.entries := he
    rw [e1] at he2
    exact absurd he2 (List.not_mem_nil e)
  simp only [Transitive.finishBootstrapping]
  split
  next heq =>
    refine ⟨⟨hs1, ?_⟩, AddsOK_nil env⟩
    intro _
    exact ⟨e1, e2⟩
  next blk heq =>
    split
    next ho =>
      refine ⟨⟨hs1, ?_⟩, AddsOK_nil env⟩
      intro _
      exact ⟨e1, e2⟩
    next o1 o2 ho =>
      have hbe : EnvBlk env blk := EnvBlk.vmGet heq
      have hpar := hwf.optParent blk o1 o2 hbe ho
      have hla : blk.bid = env.lastAccepted := hwf.vmGetCoherent _ _ heq
      have hdeliv := (knot_stepOK env hwf fuel).2.2.2.2.1
      have ho1mem : o1.parent ∈
          ({ s with cons := ⟨[env.lastAccepted], env.lastAccepted⟩ } : EState).cons.issued := by
        show o1.parent ∈ [env.lastAccepted]
        rw [hpar.1, hla]
        exact List.mem_singleton.mpr rfl
      obtain ⟨a1, a2, a3, a4⟩ := hdeliv _ o1 hs1 (EnvBlk.optL hbe ho) (Or.inl ho1mem)
      have ho2mem : o2.parent ∈
          (deliver fuel env { s with cons := ⟨[env.lastAccepted], env.lastAccepted⟩ } o1).1.cons.issued := by
        apply a2
        show o2.parent ∈ [env.lastAccepted]
        rw [hpar.2, hla]
        exact List.mem_singleton.mpr rfl
      obtain ⟨b1, b2, b3, b4⟩ := hdeliv _ o2 a1 (EnvBlk.optR hbe ho) (Or.inl ho2mem)
      refine ⟨⟨b1, ?_⟩, AddsOK_append a4 b4⟩
      intro hbf
      exact absurd hbf (by simp)
    next ho =>
      refine ⟨⟨hs1, ?_⟩, AddsOK_nil env⟩
      intro hbf
      exact absurd hbf (by simp)

theorem HStep_invB (env : Env) (hwf : EnvWF env) (s s' : EState) (tr : List Event)
    (h : InvB env s) (hs : HStep env s s' tr) : InvB env s' ∧ AddsOK env tr := by
  cases hs with
  | finishBoot fuel s0 hpre => exact finishBoot_invB env hwf fuel s hpre h
  | get s0 vdr rid bid => exact Get_invB env s vdr rid bid h
  | getAncestors timeOK s0 vdr rid bid => exact GetAncestors_invB env timeOK s vdr rid bid h
  | put fuel s0 vdr rid bid bytes => exact Put_invB env hwf fuel s vdr rid bid bytes h
  | getFailed fuel s0 vdr rid => exact GetFailed_invB env fuel s vdr rid h
  | pullQuery fuel s0 vdr rid bid => exact PullQuery_invB env hwf fuel s vdr rid bid h
  | pushQuery fuel s0 vdr rid bid bytes =>
      exact PushQuery_invB env hwf fuel s vdr rid bid bytes h
  | chits fuel s0 vdr rid votes => exact Chits_invB env hwf fuel s vdr rid votes h
  | queryFailed fuel s0 vdr rid => exact QueryFailed_invB env hwf fuel s vdr rid h
  | notify fuel s0 msg => exact Notify_invB env hwf fuel s msg h
  | gossip s0 => exact Gossip_invB env s h

theorem Reach_InvB (env : Env) (hwf : EnvWF env) : ∀ s, Reach env s → InvB env s := by
  intro s hr
  induction hr with
  | init =>
    refine ⟨⟨?_, ?_, ?_, ?_⟩, fun _ => ⟨rfl, rfl⟩⟩
    · intro p hp
      exact absurd hp (by simp [freshState])
    · intro e he
      exact absurd he (by simp [freshState])
    · intro i b hib
      exact absurd hib (by simp [freshState])
    · intro e he
      exact absurd he (by simp [freshState])
  | step hr1 hstep ih => exact (HStep_invB env hwf _ _ _ ih hstep).1

theorem envTriv_noBlk : ∀ b, ¬ EnvBlk envTriv b := by
  intro b hb
  induction hb with
  | parse hp => simp [envTriv] at hp
  | vmGet hp => simp [envTriv] at hp
  | build hp => simp [envTriv] at hp
  | optL hb ho ih => exact ih
  | optR hb ho ih => exact ih

theorem envTriv_wf : EnvWF envTriv := by
  refine ⟨?_, ?_, ?_, ?_, ?_⟩
  · intro i b hg
    simp [envTriv] at hg
  · intro b o1 o2 hb _
    exact absurd hb (envTriv_noBlk b)
  · intro c votes d hd
    simp [envTriv] at hd
  · intro c votes i hi
    simpa [envTriv] using hi
  · intro b hg
    simp [envTriv] at hg

/-- C1: from every reachable engine state, whatever entry point fires next, every
`Consensus.Add(blk)` call recorded in its trace happens with
`Consensus.Issued(blk.Parent())` already true at call time (the snapshot of the
issued set taken at the call), or with the parent decided (Accepted or
Rejected): ancestors enter Consensus strictly before descendants. The
environment is only assumed to satisfy the collaborators' contracts (`EnvWF`). -/
theorem C1_parent_issued_before_add (env : Env) (s s' : EState) (tr : List Event)
    (hwf : EnvWF env) (hr : Reach env s) (hs : HStep env s s' tr) :
    AddsOK env tr :=
  (HStep_invB env hwf s s' tr (Reach_InvB env hwf s hr) hs).2

/-- Witness for C1: the inert environment satisfies the collaborator contracts,
the fresh state is reachable, and the gossip entry point fires from it. -/
theorem C1_witness :
    AddsOK envTriv (Transitive.Gossip envTriv freshState).2 :=
  C1_parent_issued_before_add envTriv freshState
    (Transitive.Gossip envTriv freshState).1
    (Transitive.Gossip envTriv freshState).2
    envTriv_wf Reach.init (HStep.gossip freshState)

end SnowmanEngine
